import Mathlib

/-
  Verification of the friend-graph core (src/graph.js).

  The graph data store is embedded shallowly: JS arrays of "Node | null"
  become lists of three-valued slots (a JS array cell can also be a hole,
  read back as `undefined`), the string-keyed Map `_pairToEdgeIndex`
  becomes an association list with JS Map set/get semantics, the JS Sets
  of `_adj` become finite sets of indices, and `Date` values are their
  millisecond timestamps (integers).  Methods that can throw a TypeError
  return the state at the moment of the throw together with the error,
  because a JS exception does not roll back earlier field mutations.
  Real numbers stand in for JS floats in the force simulation.
-/

/-- 2D vector: the repository's `vec2` helper library is not under src
(only its callers are), so vectors are pairs of reals. -/
abbrev Vec : Type := ℝ × ℝ

/-- Modelled from the spec: the `vec2(x, y)` constructor of the missing
vec2 helper file builds a 2D float vector. -/
def vec2 (x y : ℝ) : Vec := (x, y)

/-- Modelled from the spec: `vec2.add`, componentwise vector addition. -/
def vec2.add (v w : Vec) : Vec := (v.1 + w.1, v.2 + w.2)

/-- Modelled from the spec: `vec2.sub`, componentwise vector subtraction
(`r = pos(j) - pos(i)`). -/
def vec2.sub (v w : Vec) : Vec := (v.1 - w.1, v.2 - w.2)

/-- Modelled from the spec: `vec2.mul`, scaling a vector by a scalar. -/
def vec2.mul (v : Vec) (k : ℝ) : Vec := (v.1 * k, v.2 * k)

/-- Modelled from the spec: `vec2.div`, dividing a vector by a scalar
(`dir = r / dist`). -/
noncomputable def vec2.div (v : Vec) (k : ℝ) : Vec := (v.1 / k, v.2 / k)

/-- Modelled from the spec: `vec2.len`, the Euclidean length used for
`dist = length(r)`. -/
noncomputable def vec2.len (v : Vec) : ℝ := Real.sqrt (v.1 ^ 2 + v.2 ^ 2)

/-- Modelled from the spec: `vec2.eq`, the exact equality test that
detects coincident positions (`if r is the zero vector`). -/
def vec2.eq (v w : Vec) : Prop := v = w

/-- A friend node: display name, optional image handle, 2D position. -/
structure Node where
  name : String
  image : Option String
  pos : Vec

/-- One cell of the JS `nodes` array: a live node, an explicit `null`
tombstone, or a hole (reads as `undefined`). -/
inductive Slot
  | undef
  | null
  | node (n : Node)

/-- One cell of the JS `_adj` array: a Set of neighbour indices, or a
hole (reads as `undefined`). -/
inductive AdjSlot
  | undef
  | set (s : Finset ℕ)

/-- The graph state: `nodes`, `edges` (endpoint indices and the date's
millisecond timestamp), `_pairToEdgeIndex` as an association list,
`_adj`, the five force constants and the jitter table. -/
structure Graph where
  nodes : List Slot
  edges : List (ℕ × ℕ × ℤ)
  pairToEdgeIndex : List (String × ℕ)
  adj : List AdjSlot
  springK : ℝ
  springRest : ℝ
  repelK : ℝ
  closeRepelK : ℝ
  centerK : ℝ
  jitter : List Vec

/-- The `Graph` constructor: empty containers, the default constants and
the eight-entry jitter table. -/
noncomputable def Graph.init : Graph :=
  { nodes := []
    edges := []
    pairToEdgeIndex := []
    adj := []
    springK := 0.6
    springRest := 140
    repelK := 2600
    closeRepelK := 500
    centerK := 0.020
    jitter := [vec2 2.5 0, vec2 1.8 1.8, vec2 0 2.5, vec2 (-1.8) 1.8,
               vec2 (-2.5) 0, vec2 (-1.8) (-1.8), vec2 0 (-2.5), vec2 1.8 (-1.8)] }

/-- JS `Map.get`: the value stored at a key, if present. -/
def mapGet (m : List (String × ℕ)) (k : String) : Option ℕ :=
  (m.find? (fun p => p.1 == k)).map (fun p => p.2)

/-- JS `Map.set`: replace the binding if the key is present, else append. -/
def mapSet (m : List (String × ℕ)) (k : String) (v : ℕ) : List (String × ℕ) :=
  if m.any (fun p => p.1 == k) then
    m.map (fun p => if p.1 == k then (k, v) else p)
  else m ++ [(k, v)]

/-- JS array element assignment `l[i] = v`: in bounds it overwrites; out
of bounds it extends the array, leaving holes (`dflt`) in between. -/
def listWrite {α : Type} (l : List α) (i : ℕ) (v dflt : α) : List α :=
  if i < l.length then l.set i v
  else l ++ List.replicate (i - l.length) dflt ++ [v]

/-- The canonical string key `a + ":" + b` of `_pairToEdgeIndex`. -/
def pairKey (a b : ℕ) : String := toString a ++ ":" ++ toString b

/-- A fresh node as built by `new Node(name)`: no image, position (0,0). -/
def newNode (name : String) : Node := { name := name, image := none, pos := vec2 0 0 }

/-- The first loop of `getOrCreateNodeIndex`: scan for a live slot with
the given name.  Reading `n.name` off a hole (`undefined`) throws. -/
def findByName : List Slot → String → Except String (Option ℕ)
  | [], _ => Except.ok none
  | Slot.undef :: _, _ => Except.error "TypeError"
  | Slot.null :: rest, name => (findByName rest name).map (Option.map Nat.succ)
  | Slot.node n :: rest, name =>
      if n.name = name then Except.ok (some 0)
      else (findByName rest name).map (Option.map Nat.succ)

/-- The second loop of `getOrCreateNodeIndex`: the first slot that is
`=== null` (holes are skipped: `undefined !== null`). -/
def findFreeSlot : List Slot → Option ℕ
  | [] => none
  | Slot.null :: _ => some 0
  | _ :: rest => (findFreeSlot rest).map Nat.succ

/-- `getOrCreateNodeIndex(name)`: return the index of the first live node
with this name; else revive the first `null` slot; else append. -/
def getOrCreateNodeIndex (g : Graph) (name : String) : Graph × Except String ℕ :=
  match findByName g.nodes name with
  | Except.error e => (g, Except.error e)
  | Except.ok (some idx) => (g, Except.ok idx)
  | Except.ok none =>
    match findFreeSlot g.nodes with
    | some idx =>
        ({ g with nodes := listWrite g.nodes idx (Slot.node (newNode name)) Slot.undef
                  adj := listWrite g.adj idx (AdjSlot.set ∅) AdjSlot.undef },
         Except.ok idx)
    | none =>
        ({ g with nodes := g.nodes ++ [Slot.node (newNode name)]
                  adj := g.adj ++ [AdjSlot.set ∅] },
         Except.ok g.nodes.length)

/-- The JS `=== null` test on an array read. -/
def Slot.isNull : Slot → Bool
  | Slot.null => true
  | _ => false

/-- `isFree(i)`: whether `this.nodes[i] === null`. -/
def isFree (g : Graph) (i : ℕ) : Bool :=
  (g.nodes.getD i Slot.undef).isNull

/-- Whether slot `i` holds a live node. -/
def isLive (g : Graph) (i : ℕ) : Prop :=
  ∃ nd, g.nodes.getD i Slot.undef = Slot.node nd

/-- The name stored at a live slot, if any. -/
def nameAt (g : Graph) (i : ℕ) : Option String :=
  match g.nodes.getD i Slot.undef with
  | Slot.node nd => some nd.name
  | _ => none

/-- The position stored at a live slot ((0,0) otherwise). -/
def posAt (g : Graph) (i : ℕ) : Vec :=
  match g.nodes.getD i Slot.undef with
  | Slot.node nd => nd.pos
  | _ => vec2 0 0

/-- The adjacency set of index `i` (empty for a hole). -/
def adjAt (g : Graph) (i : ℕ) : Finset ℕ :=
  match g.adj.getD i AdjSlot.undef with
  | AdjSlot.set s => s
  | AdjSlot.undef => ∅

/-- `degree(i)`: `this._adj[i].size`; reading `.size` off a hole throws. -/
def degree (g : Graph) (i : ℕ) : Except String ℕ :=
  match g.adj.getD i AdjSlot.undef with
  | AdjSlot.set s => Except.ok s.card
  | AdjSlot.undef => Except.error "TypeError"

/-- `renameNode(i, newName)`: assigning `.name` throws unless slot `i`
holds a live node; it performs no uniqueness check. -/
def renameNode (g : Graph) (i : ℕ) (newName : String) : Graph × Option String :=
  match g.nodes.getD i Slot.undef with
  | Slot.node n =>
      ({ g with nodes := g.nodes.set i (Slot.node { n with name := newName }) }, none)
  | _ => (g, some "TypeError")

/-- `this._adj[a].add(b)`: throws when cell `a` is out of bounds or a
hole, otherwise inserts into the Set. -/
def adjAdd (adj : List AdjSlot) (a b : ℕ) : Except String (List AdjSlot) :=
  match adj.getD a AdjSlot.undef with
  | AdjSlot.undef => Except.error "TypeError"
  | AdjSlot.set s => Except.ok (adj.set a (AdjSlot.set (insert b s)))

/-- `addOrUpdateEdge(i, j, date)`: canonicalize the pair; an existing
edge keeps the earliest date; a new edge is pushed, indexed, and both
adjacency sets are updated (in that order, so a throw while updating
adjacency leaves the edge list and pair index already mutated). -/
def addOrUpdateEdge (g : Graph) (i j : ℕ) (date : ℤ) : Graph × Option String :=
  let a := if i < j then i else j
  let b := if i < j then j else i
  let key := pairKey a b
  match mapGet g.pairToEdgeIndex key with
  | some existing =>
      match g.edges.get? existing with
      | none => (g, some "TypeError")
      | some e =>
          if date < e.2.2 then
            ({ g with edges := g.edges.set existing (e.1, e.2.1, date) }, none)
          else (g, none)
  | none =>
      let idx := g.edges.length
      let g1 := { g with edges := g.edges ++ [(a, b, date)]
                         pairToEdgeIndex := mapSet g.pairToEdgeIndex key idx }
      match adjAdd g1.adj a b with
      | Except.error e => (g1, some e)
      | Except.ok adj1 =>
          match adjAdd adj1 b a with
          | Except.error e => ({ g1 with adj := adj1 }, some e)
          | Except.ok adj2 => ({ g1 with adj := adj2 }, none)

/-- The loop body of `_rebuildEdgeIndex`: register each edge under its
key and re-insert both adjacency memberships. -/
def rebuildLoop : List (ℕ × ℕ × ℤ) → ℕ → List (String × ℕ) → List AdjSlot →
    (List (String × ℕ) × List AdjSlot) × Option String
  | [], _, m, adj => ((m, adj), none)
  | (a, b, _) :: rest, e, m, adj =>
      let m1 := mapSet m (pairKey a b) e
      match adjAdd adj a b with
      | Except.error err => ((m1, adj), some err)
      | Except.ok adj1 =>
          match adjAdd adj1 b a with
          | Except.error err => ((m1, adj1), some err)
          | Except.ok adj2 => rebuildLoop rest (e + 1) m1 adj2

/-- `_rebuildEdgeIndex()`: fresh Map, every adjacency cell below the
array length reset to an empty Set, then the loop over the edges. -/
def rebuildEdgeIndex (g : Graph) : Graph × Option String :=
  let start := g.adj.map (fun _ => AdjSlot.set ∅)
  match rebuildLoop g.edges 0 [] start with
  | ((m, adj1), err) => ({ g with pairToEdgeIndex := m, adj := adj1 }, err)

/-- `deleteNode(i)`: no-op when the slot is `=== null`; otherwise write
`null`, reset the adjacency cell, drop the incident edges (collecting
their endpoint pairs in storage order) and rebuild the index. -/
def deleteNode (g : Graph) (i : ℕ) : (Graph × List (ℕ × ℕ)) × Option String :=
  if (g.nodes.getD i Slot.undef).isNull then ((g, []), none)
  else
      let removedPairs := (g.edges.filter (fun e => e.1 = i ∨ e.2.1 = i)).map
        (fun e => (e.1, e.2.1))
      let kept := g.edges.filter (fun e => ¬(e.1 = i ∨ e.2.1 = i))
      let g1 := { g with nodes := listWrite g.nodes i Slot.null Slot.undef
                         adj := listWrite g.adj i (AdjSlot.set ∅) AdjSlot.undef
                         edges := kept }
      match rebuildEdgeIndex g1 with
      | (g2, none) => ((g2, removedPairs), none)
      | (g2, some e) => ((g2, removedPairs), some e)

/-- The name-resolution loop of `addFriendGroup`. -/
def resolveNames (g : Graph) : List String → (Graph × List ℕ) × Option String
  | [] => ((g, []), none)
  | name :: rest =>
      let r1 := getOrCreateNodeIndex g name
      match r1.2 with
      | Except.error e => ((r1.1, []), some e)
      | Except.ok idx =>
          let r2 := resolveNames r1.1 rest
          ((r2.1.1, idx :: r2.1.2), r2.2)

/-- The index pairs visited by the double loop `a < b` over a list. -/
def listPairs : List ℕ → List (ℕ × ℕ)
  | [] => []
  | x :: rest => rest.map (fun y => (x, y)) ++ listPairs rest

/-- The edge-insertion loop of `addFriendGroup`. -/
def addEdgesLoop (g : Graph) (ps : List (ℕ × ℕ)) (date : ℤ) : Graph × Option String :=
  match ps with
  | [] => (g, none)
  | (i, j) :: rest =>
      let r := addOrUpdateEdge g i j date
      match r.2 with
      | none => addEdgesLoop r.1 rest date
      | some e => (r.1, some e)

/-- `addFriendGroup(names, date)`: resolve or create every name, then add
an edge for every pair of positions in the resolved list. -/
def addFriendGroup (g : Graph) (names : List String) (date : ℤ) : Graph × Option String :=
  let r := resolveNames g names
  match r.2 with
  | none => addEdgesLoop r.1.1 (listPairs r.1.2) date
  | some e => (r.1.1, some e)

/-- The coincidence test is decidable (classically) so that the source's
branch on `vec2.eq` can be written as an `if`. -/
noncomputable instance (v w : Vec) : Decidable (vec2.eq v w) := by
  unfold vec2.eq
  infer_instance

/-- The possibly jitter-substituted second position of a pair
interaction: on coincident positions `pj` is offset by
`this.jitter[j & 7]`, with `j` the higher node index. -/
noncomputable def pairPj (g : Graph) (pi pj : Vec) (j : ℕ) : Vec :=
  if vec2.eq pi pj then vec2.add pj (g.jitter.getD (j &&& 7) (vec2 0 0)) else pj

/-- The separation vector `r = vec2.sub(pj, pi)` of a pair interaction. -/
noncomputable def pairR (g : Graph) (pi pj : Vec) (j : ℕ) : Vec :=
  vec2.sub (pairPj g pi pj j) pi

/-- The raw (unclamped) distance `vec2.len(r)` of a pair interaction. -/
noncomputable def pairDistRaw (g : Graph) (pi pj : Vec) (j : ℕ) : ℝ :=
  vec2.len (pairR g pi pj j)

/-- The direction vector `dir = vec2.div(r, dist)` of a pair interaction:
the divisor is the raw distance, computed before the clamp. -/
noncomputable def pairDir (g : Graph) (pi pj : Vec) (j : ℕ) : Vec :=
  vec2.div (pairR g pi pj j) (pairDistRaw g pi pj j)

/-- The clamped distance `dist = Math.max(dist, 1)` that feeds the three
force magnitudes. -/
noncomputable def pairDist (g : Graph) (pi pj : Vec) (j : ℕ) : ℝ :=
  max (pairDistRaw g pi pj j) 1

/-- The spring force vector `dir * (springK * stretch * |stretch| / springRest)`. -/
noncomputable def springForce (g : Graph) (dist : ℝ) (dir : Vec) : Vec :=
  vec2.mul dir (g.springK * (dist - g.springRest) * |dist - g.springRest| / g.springRest)

/-- The long-range repulsion vector `dir * (repelK / (dist * dist))`. -/
noncomputable def repelForce (g : Graph) (dist : ℝ) (dir : Vec) : Vec :=
  vec2.mul dir (g.repelK / (dist * dist))

/-- The close-range repulsion vector
`dir * (closeRepelK / (dist * dist * dist * dist))`. -/
noncomputable def closeForce (g : Graph) (dist : ℝ) (dir : Vec) : Vec :=
  vec2.mul dir (g.closeRepelK / (dist * dist * dist * dist))

/-- Pointwise update of the force accumulator array. -/
def updF (F : ℕ → Vec) (k : ℕ) (v : Vec) : ℕ → Vec :=
  fun m => if m = k then v else F m

/-- One pair interaction of `update`: the spring term (connected) or the
long-range repulsion term (not connected), then the close-range
repulsion term, each added to `i`'s accumulator and subtracted from
`j`'s (or vice versa) exactly as in the source. -/
noncomputable def applyPair (g : Graph) (F : ℕ → Vec) (i j : ℕ) (pi pj : Vec)
    (connected : Bool) : ℕ → Vec :=
  let dir := pairDir g pi pj j
  let dist := pairDist g pi pj j
  let F1 :=
    if connected then
      updF (updF F i (vec2.add (F i) (springForce g dist dir))) j
        (vec2.sub (F j) (springForce g dist dir))
    else
      updF (updF F i (vec2.sub (F i) (repelForce g dist dir))) j
        (vec2.add (F j) (repelForce g dist dir))
  updF (updF F1 i (vec2.sub (F1 i) (closeForce g dist dir))) j
    (vec2.add (F1 j) (closeForce g dist dir))

/-- The pairs `(i2, j)` with `i2 < j < n` in loop order. -/
def pairList (n : ℕ) : List (ℕ × ℕ) :=
  (List.range n).flatMap (fun i => ((List.range n).drop (i + 1)).map (fun j => (i, j)))

/-- One step of the pair loop of `update`: `null` slots are skipped, a
hole is dereferenced (`.pos` on `undefined` throws), and the adjacency
cell of `i2` decides which long-range term applies. -/
noncomputable def pairStep (g : Graph) (F : ℕ → Vec) (p : ℕ × ℕ) :
    Except String (ℕ → Vec) :=
  match g.nodes.getD p.1 Slot.undef, g.nodes.getD p.2 Slot.undef with
  | Slot.null, _ => Except.ok F
  | _, Slot.null => Except.ok F
  | Slot.undef, _ => Except.error "TypeError"
  | _, Slot.undef => Except.error "TypeError"
  | Slot.node ni, Slot.node nj =>
      match g.adj.getD p.1 AdjSlot.undef with
      | AdjSlot.undef => Except.error "TypeError"
      | AdjSlot.set s =>
          Except.ok (applyPair g F p.1 p.2 ni.pos nj.pos (decide (p.2 ∈ s)))

/-- One step of the centering loop of `update`: subtract
`pos * centerK`; dereferencing a hole throws. -/
noncomputable def centerStep (g : Graph) (F : ℕ → Vec) (k : ℕ) :
    Except String (ℕ → Vec) :=
  match g.nodes.getD k Slot.undef with
  | Slot.null => Except.ok F
  | Slot.undef => Except.error "TypeError"
  | Slot.node nd =>
      Except.ok (updF F k (vec2.sub (F k) (vec2.mul nd.pos g.centerK)))

/-- The integration loop of `update`: `pos += force * dt` for every live
slot (the centering loop has already dereferenced every non-null slot,
so no hole can reach this loop). -/
noncomputable def integrate (g : Graph) (F : ℕ → Vec) (t : ℝ) : Graph :=
  { g with nodes := g.nodes.mapIdx (fun m slot =>
      match slot with
      | Slot.node nd => Slot.node { nd with pos := vec2.add nd.pos (vec2.mul (F m) t) }
      | s => s) }

/-- `update(t)`: no-op on an empty graph; otherwise the pair loop, the
centering loop and the integration loop.  A throw happens before any
position is written, leaving the graph unchanged. -/
noncomputable def update (g : Graph) (t : ℝ) : Graph × Option String :=
  if g.nodes.length = 0 then (g, none)
  else
    match (pairList g.nodes.length).foldlM (pairStep g) (fun _ => vec2 0 0) with
    | Except.error e => (g, some e)
    | Except.ok F =>
        match (List.range g.nodes.length).foldlM (centerStep g) F with
        | Except.error e => (g, some e)
        | Except.ok F2 => (integrate g F2 t, none)

/-- `adjAt` read off a raw adjacency array. -/
def adjAtL (adj : List AdjSlot) (i : ℕ) : Finset ℕ :=
  match adj.getD i AdjSlot.undef with
  | AdjSlot.set s => s
  | AdjSlot.undef => ∅

theorem adjAt_eq_adjAtL (g : Graph) (i : ℕ) : adjAt g i = adjAtL g.adj i := rfl

theorem getD_out {α : Type} (l : List α) (d : α) {x : ℕ} (h : l.length ≤ x) :
    l.getD x d = d := by
  rw [List.getD_eq_getElem?_getD, List.getElem?_eq_none h]
  rfl

theorem getD_set_self {α : Type} (l : List α) (d v : α) {i : ℕ} (h : i < l.length) :
    (l.set i v).getD i d = v := by
  rw [List.getD_eq_getElem?_getD, List.getElem?_set_self (by simpa using h)]
  rfl

theorem getD_set_ne {α : Type} (l : List α) (d v : α) {i x : ℕ} (h : x ≠ i) :
    (l.set i v).getD x d = l.getD x d := by
  rw [List.getD_eq_getElem?_getD, List.getElem?_set_ne (Ne.symm h),
    ← List.getD_eq_getElem?_getD]

theorem getD_append_left {α : Type} (l m : List α) (d : α) {x : ℕ} (h : x < l.length) :
    (l ++ m).getD x d = l.getD x d := by
  rw [List.getD_eq_getElem?_getD, List.getElem?_append_left h, ← List.getD_eq_getElem?_getD]

theorem getD_append_self {α : Type} (l : List α) (d v : α) :
    (l ++ [v]).getD l.length d = v := by
  rw [List.getD_eq_getElem?_getD, List.getElem?_append_right (le_refl _)]
  simp

theorem listWrite_length {α : Type} (l : List α) (i : ℕ) (v d : α) :
    (listWrite l i v d).length = max l.length (i + 1) := by
  unfold listWrite
  split
  · simp
    omega
  · simp
    omega

theorem getD_listWrite_self {α : Type} (l : List α) (i : ℕ) (v d : α) :
    (listWrite l i v d).getD i d = v := by
  unfold listWrite
  split
  · exact getD_set_self l d v (by assumption)
  · rename_i h
    have hlen : (l ++ List.replicate (i - l.length) d).length = i := by
      simp
      omega
    have h2 := getD_append_self (l ++ List.replicate (i - l.length) d) d v
    rw [hlen] at h2
    simpa [List.append_assoc] using h2

theorem getD_listWrite_ne {α : Type} (l : List α) (i : ℕ) (v d : α) {x : ℕ}
    (h : x ≠ i) :
    (listWrite l i v d).getD x d = l.getD x d := by
  unfold listWrite
  split
  · exact getD_set_ne l d v h
  · rename_i hge
    by_cases hx : x < l.length
    · rw [show l ++ List.replicate (i - l.length) d ++ [v]
          = l ++ (List.replicate (i - l.length) d ++ [v]) by simp,
        getD_append_left _ _ _ hx]
    · rw [getD_out l d (by omega)]
      by_cases hx2 : x < i
      · rw [List.getD_eq_getElem?_getD]
        rw [show l ++ List.replicate (i - l.length) d ++ [v]
            = l ++ (List.replicate (i - l.length) d ++ [v]) by simp]
        rw [List.getElem?_append_right (by omega)]
        rw [List.getElem?_append_left (by simp; omega)]
        rw [List.getElem?_replicate, if_pos (by omega)]
        rfl
      · rw [List.getD_eq_getElem?_getD, List.getElem?_eq_none (by simp; omega)]
        rfl

theorem mapGet_cons (p : String × ℕ) (m : List (String × ℕ)) (k : String) :
    mapGet (p :: m) k = if p.1 = k then some p.2 else mapGet m k := by
  unfold mapGet
  by_cases h : p.1 = k
  · simp [List.find?_cons, h]
  · simp [List.find?_cons, h]

theorem mapGet_any (m : List (String × ℕ)) (k : String) :
    m.any (fun p => p.1 == k) = false ↔ mapGet m k = none := by
  induction m with
  | nil => simp [mapGet]
  | cons p rest ih =>
    rw [mapGet_cons]
    by_cases h : p.1 = k
    · simp [h]
    · simp [h, ih]

theorem mapGet_append_none (m : List (String × ℕ)) (k : String) (v : ℕ)
    (h : mapGet m k = none) : mapGet (m ++ [(k, v)]) k = some v := by
  induction m with
  | nil => rw [List.nil_append, mapGet_cons]; simp
  | cons p rest ih =>
    rw [mapGet_cons] at h
    rw [List.cons_append, mapGet_cons]
    by_cases hp : p.1 = k
    · simp [hp] at h
    · rw [if_neg hp] at h ⊢
      exact ih h

theorem mapGet_append_other (m : List (String × ℕ)) (k k2 : String) (v : ℕ)
    (h : k2 ≠ k) : mapGet (m ++ [(k, v)]) k2 = mapGet m k2 := by
  induction m with
  | nil => rw [List.nil_append, mapGet_cons]; simp [mapGet, Ne.symm h]
  | cons p rest ih =>
    rw [List.cons_append, mapGet_cons, mapGet_cons]
    by_cases hp : p.1 = k2
    · simp [hp]
    · rw [if_neg hp, if_neg hp]
      exact ih

theorem mapGet_replace_self (m : List (String × ℕ)) (k : String) (v : ℕ)
    (h : m.any (fun p => p.1 == k) = true) :
    mapGet (m.map (fun p => if p.1 == k then (k, v) else p)) k = some v := by
  induction m with
  | nil => simp at h
  | cons p rest ih =>
    rw [List.map_cons]
    by_cases hp : p.1 = k
    · rw [if_pos (by simpa using hp), mapGet_cons, if_pos rfl]
    · rw [if_neg (by simpa using hp), mapGet_cons, if_neg hp]
      exact ih (by simpa [hp] using h)

theorem mapGet_replace_other (m : List (String × ℕ)) (k k2 : String) (v : ℕ)
    (h : k2 ≠ k) :
    mapGet (m.map (fun p => if p.1 == k then (k, v) else p)) k2 = mapGet m k2 := by
  induction m with
  | nil => rfl
  | cons p rest ih =>
    rw [List.map_cons]
    by_cases hp : p.1 = k
    · rw [if_pos (by simpa using hp), mapGet_cons, mapGet_cons,
        if_neg (show ¬((k, v).1 = k2) by simpa using Ne.symm h),
        if_neg (show ¬(p.1 = k2) by rw [hp]; exact Ne.symm h)]
      exact ih
    · rw [if_neg (by simpa using hp), mapGet_cons, mapGet_cons]
      by_cases hp2 : p.1 = k2
      · simp [hp2]
      · rw [if_neg hp2, if_neg hp2]
        exact ih

theorem mapGet_mapSet_self (m : List (String × ℕ)) (k : String) (v : ℕ) :
    mapGet (mapSet m k v) k = some v := by
  unfold mapSet
  split
  · exact mapGet_replace_self m k v (by assumption)
  · rename_i h
    exact mapGet_append_none m k v ((mapGet_any m k).mp ((Bool.not_eq_true _) ▸ h))

theorem mapGet_mapSet_ne (m : List (String × ℕ)) (k k2 : String) (v : ℕ)
    (h : k2 ≠ k) : mapGet (mapSet m k v) k2 = mapGet m k2 := by
  unfold mapSet
  split
  · exact mapGet_replace_other m k k2 v h
  · exact mapGet_append_other m k k2 v h

/-- The internal consistency invariant maintained by every public
operation: array lengths agree, adjacency cells are real Sets, edge
endpoints are live, endpoints are stored canonically, the pair index is
complete and sound for the edge list, and adjacency sets mirror the
edge list exactly. -/
structure GraphInv (g : Graph) : Prop where
  lenEq : g.adj.length = g.nodes.length
  adjDef : ∀ x, x < g.adj.length → g.adj.getD x AdjSlot.undef ≠ AdjSlot.undef
  liveEnds : ∀ e ∈ g.edges, isLive g e.1 ∧ isLive g e.2.1
  canon : ∀ e ∈ g.edges, e.1 ≤ e.2.1
  keyComplete : ∀ v e, g.edges.get? v = some e →
    mapGet g.pairToEdgeIndex (pairKey e.1 e.2.1) = some v
  keySound : ∀ k v, mapGet g.pairToEdgeIndex k = some v →
    ∃ e, g.edges.get? v = some e ∧ k = pairKey e.1 e.2.1
  adjExact : ∀ x y, y ∈ adjAt g x ↔ ∃ d, (min x y, max x y, d) ∈ g.edges

theorem isLive_lt {g : Graph} {i : ℕ} (h : isLive g i) : i < g.nodes.length := by
  by_contra hge
  obtain ⟨nd, hnd⟩ := h
  rw [getD_out _ _ (Nat.le_of_not_lt hge)] at hnd
  exact Slot.noConfusion hnd

theorem adjAtL_eq {adj : List AdjSlot} {a : ℕ} {s : Finset ℕ}
    (h : adj.getD a AdjSlot.undef = AdjSlot.set s) : adjAtL adj a = s := by
  unfold adjAtL
  rw [h]

theorem adjAtL_undef {adj : List AdjSlot} {a : ℕ}
    (h : adj.getD a AdjSlot.undef = AdjSlot.undef) : adjAtL adj a = ∅ := by
  unfold adjAtL
  rw [h]

theorem adjAtL_out {adj : List AdjSlot} {a : ℕ} (h : adj.length ≤ a) :
    adjAtL adj a = ∅ :=
  adjAtL_undef (getD_out _ _ h)

theorem adjAdd_ok {adj : List AdjSlot} {a : ℕ} (b : ℕ)
    (hdef : ∀ x, x < adj.length → adj.getD x AdjSlot.undef ≠ AdjSlot.undef)
    (hlt : a < adj.length) :
    adjAdd adj a b = Except.ok (adj.set a (AdjSlot.set (insert b (adjAtL adj a)))) := by
  unfold adjAdd
  cases hc : adj.getD a AdjSlot.undef with
  | undef => exact absurd hc (hdef a hlt)
  | set s => rw [adjAtL_eq hc]

theorem adjAtL_set_self {adj : List AdjSlot} {a : ℕ} (s : Finset ℕ)
    (hlt : a < adj.length) :
    adjAtL (adj.set a (AdjSlot.set s)) a = s :=
  adjAtL_eq (getD_set_self _ _ _ hlt)

theorem adjAtL_set_ne {adj : List AdjSlot} {a x : ℕ} (s : Finset ℕ)
    (h : x ≠ a) :
    adjAtL (adj.set a (AdjSlot.set s)) x = adjAtL adj x := by
  unfold adjAtL
  rw [getD_set_ne _ _ _ h]

theorem findFreeSlot_spec (l : List Slot) (idx : ℕ) (h : findFreeSlot l = some idx) :
    idx < l.length ∧ l.getD idx Slot.undef = Slot.null := by
  induction l generalizing idx with
  | nil => simp [findFreeSlot] at h
  | cons s rest ih =>
    cases s with
    | null =>
      simp [findFreeSlot] at h
      subst h
      simp
    | undef =>
      simp only [findFreeSlot, Option.map_eq_some'] at h
      obtain ⟨j, hj, hidx⟩ := h
      obtain ⟨h1, h2⟩ := ih j hj
      subst hidx
      exact ⟨by simpa using Nat.succ_lt_succ h1, by simpa using h2⟩
    | node n =>
      simp only [findFreeSlot, Option.map_eq_some'] at h
      obtain ⟨j, hj, hidx⟩ := h
      obtain ⟨h1, h2⟩ := ih j hj
      subst hidx
      exact ⟨by simpa using Nat.succ_lt_succ h1, by simpa using h2⟩

theorem edge_ends_ne_dead {g : Graph} (h : GraphInv g) {i : ℕ}
    (hnot : ¬ isLive g i) : ∀ e ∈ g.edges, e.1 ≠ i ∧ e.2.1 ≠ i := by
  intro e he
  obtain ⟨h1, h2⟩ := h.liveEnds e he
  constructor
  · intro hc
    exact hnot (hc ▸ h1)
  · intro hc
    exact hnot (hc ▸ h2)

theorem graphInv_init : GraphInv Graph.init := by
  constructor
  · rfl
  · intro x hx
    simp [Graph.init] at hx
  · intro e he
    simp [Graph.init] at he
  · intro e he
    simp [Graph.init] at he
  · intro v e he
    simp [Graph.init] at he
  · intro k v hkv
    simp [Graph.init, mapGet] at hkv
  · intro x y
    simp [Graph.init, adjAt, adjAtL, List.getD]

theorem graphInv_getOrCreate (g : Graph) (name : String) (h : GraphInv g) :
    GraphInv (getOrCreateNodeIndex g name).1 := by
  unfold getOrCreateNodeIndex
  split
  · exact h
  · exact h
  · split
    · rename_i idx hfree
      obtain ⟨hlt, hnull⟩ := findFreeSlot_spec g.nodes idx hfree
      have hlta : idx < g.adj.length := by rw [h.lenEq]; exact hlt
      have hdead : ¬ isLive g idx := by
        intro ⟨nd, hnd⟩
        rw [hnull] at hnd
        exact Slot.noConfusion hnd
      have hnodesW : ∀ x, x ≠ idx →
          (listWrite g.nodes idx (Slot.node (newNode name)) Slot.undef).getD x Slot.undef
          = g.nodes.getD x Slot.undef := fun x hx => getD_listWrite_ne _ _ _ _ hx
      constructor
      · simp only [listWrite_length, h.lenEq]
      · intro x hx
        simp only [listWrite_length] at hx
        by_cases hxi : x = idx
        · subst hxi
          rw [getD_listWrite_self]
          simp
        · rw [getD_listWrite_ne _ _ _ _ hxi]
          exact h.adjDef x (by omega)
      · intro e he
        obtain ⟨hne1, hne2⟩ := edge_ends_ne_dead h hdead e he
        obtain ⟨l1, l2⟩ := h.liveEnds e he
        constructor
        · obtain ⟨nd, hnd⟩ := l1
          exact ⟨nd, by rw [hnodesW e.1 hne1]; exact hnd⟩
        · obtain ⟨nd, hnd⟩ := l2
          exact ⟨nd, by rw [hnodesW e.2.1 hne2]; exact hnd⟩
      · exact h.canon
      · exact h.keyComplete
      · exact h.keySound
      · intro x y
        rw [adjAt_eq_adjAtL]
        simp only
        by_cases hxi : x = idx
        · subst hxi
          rw [show adjAtL (listWrite g.adj x (AdjSlot.set ∅) AdjSlot.undef) x = ∅ from
            adjAtL_eq (getD_listWrite_self _ _ _ _)]
          simp only [Finset.not_mem_empty, false_iff, not_exists]
          intro d hmem
          obtain ⟨hne1, hne2⟩ := edge_ends_ne_dead h hdead _ hmem
          simp only at hne1 hne2
          omega
        · rw [show adjAtL (listWrite g.adj idx (AdjSlot.set ∅) AdjSlot.undef) x
              = adjAtL g.adj x by unfold adjAtL; rw [getD_listWrite_ne _ _ _ _ hxi]]
          exact h.adjExact x y
    · rename_i hfree
      constructor
      · simp [h.lenEq]
      · intro x hx
        simp at hx
        by_cases hxl : x < g.adj.length
        · rw [getD_append_left _ _ _ hxl]
          exact h.adjDef x hxl
        · have hxeq : x = g.adj.length := by omega
          subst hxeq
          rw [getD_append_self]
          simp
      · intro e he
        obtain ⟨l1, l2⟩ := h.liveEnds e he
        constructor
        · obtain ⟨nd, hnd⟩ := l1
          exact ⟨nd, by
            rw [getD_append_left _ _ _ (isLive_lt ⟨nd, hnd⟩)]
            exact hnd⟩
        · obtain ⟨nd, hnd⟩ := l2
          exact ⟨nd, by
            rw [getD_append_left _ _ _ (isLive_lt ⟨nd, hnd⟩)]
            exact hnd⟩
      · exact h.canon
      · exact h.keyComplete
      · exact h.keySound
      · intro x y
        rw [adjAt_eq_adjAtL]
        simp only
        by_cases hxl : x < g.adj.length
        · rw [show adjAtL (g.adj ++ [AdjSlot.set ∅]) x = adjAtL g.adj x by
            unfold adjAtL; rw [getD_append_left _ _ _ hxl]]
          exact h.adjExact x y
        · have hempty : adjAtL (g.adj ++ [AdjSlot.set ∅]) x = ∅ := by
            by_cases hxeq : x = g.adj.length
            · subst hxeq
              exact adjAtL_eq (getD_append_self _ _ _)
            · exact adjAtL_out (by simp; omega)
          rw [hempty]
          have hold : adjAtL g.adj x = ∅ := adjAtL_out (by omega)
          have := h.adjExact x y
          rw [adjAt_eq_adjAtL, hold] at this
          simpa using this

theorem edge_lo (i j : ℕ) : (if i < j then i else j) = min i j := by
  split <;> omega

theorem edge_hi (i j : ℕ) : (if i < j then j else i) = max i j := by
  split <;> omega

theorem get?_append_left {α : Type} (l m : List α) {v : ℕ} (h : v < l.length) :
    (l ++ m).get? v = l.get? v := by
  rw [List.get?_eq_getElem?, List.get?_eq_getElem?, List.getElem?_append_left h]

theorem get?_append_length {α : Type} (l : List α) (x : α) :
    (l ++ [x]).get? l.length = some x := by
  rw [List.get?_eq_getElem?, List.getElem?_append_right (le_refl _)]
  simp

theorem get?_len_le {α : Type} (l : List α) {v : ℕ} (h : l.length ≤ v) :
    l.get? v = none := by
  rw [List.get?_eq_getElem?, List.getElem?_eq_none h]

theorem get?_set_self {α : Type} (l : List α) (v : ℕ) (x : α) (h : v < l.length) :
    (l.set v x).get? v = some x := by
  rw [List.get?_eq_getElem?]
  simp [List.getElem?_set_self, h]

theorem get?_set_ne {α : Type} (l : List α) (v w : ℕ) (x : α) (h : w ≠ v) :
    (l.set v x).get? w = l.get? w := by
  rw [List.get?_eq_getElem?, List.get?_eq_getElem?, List.getElem?_set_ne (Ne.symm h)]

theorem mem_iff_get? {α : Type} (l : List α) (a : α) :
    a ∈ l ↔ ∃ n, l.get? n = some a := by
  simp [List.get?_eq_getElem?, List.mem_iff_getElem?]

theorem addOrUpdateEdge_fresh_eq (g : Graph) (i j : ℕ) (d : ℤ)
    (ha : min i j < g.adj.length) (hb : max i j < g.adj.length)
    (hdef : ∀ x, x < g.adj.length → g.adj.getD x AdjSlot.undef ≠ AdjSlot.undef)
    (hnone : mapGet g.pairToEdgeIndex (pairKey (min i j) (max i j)) = none) :
    addOrUpdateEdge g i j d =
      ({ g with
          edges := g.edges ++ [(min i j, max i j, d)]
          pairToEdgeIndex := mapSet g.pairToEdgeIndex (pairKey (min i j) (max i j))
            g.edges.length
          adj := (g.adj.set (min i j)
              (AdjSlot.set (insert (max i j) (adjAtL g.adj (min i j))))).set (max i j)
            (AdjSlot.set (insert (min i j)
              (adjAtL (g.adj.set (min i j)
                (AdjSlot.set (insert (max i j) (adjAtL g.adj (min i j))))) (max i j)))) },
       none) := by
  have h1 := @adjAdd_ok g.adj (min i j) (max i j) hdef ha
  have hdef2 : ∀ x, x < ((g.adj.set (min i j)
      (AdjSlot.set (insert (max i j) (adjAtL g.adj (min i j))))).length) →
      (g.adj.set (min i j) (AdjSlot.set (insert (max i j) (adjAtL g.adj (min i j))))).getD x
        AdjSlot.undef ≠ AdjSlot.undef := by
    intro x hx
    simp only [List.length_set] at hx
    by_cases hxa : x = min i j
    · subst hxa
      rw [getD_set_self _ _ _ ha]
      simp
    · rw [getD_set_ne _ _ _ hxa]
      exact hdef x hx
  have h2 := @adjAdd_ok (g.adj.set (min i j)
      (AdjSlot.set (insert (max i j) (adjAtL g.adj (min i j)))))
      (max i j) (min i j) hdef2 (by simpa using hb)
  simp only [addOrUpdateEdge, edge_lo, edge_hi, hnone, h1, h2]

theorem addOrUpdateEdge_existing_eq (g : Graph) (i j : ℕ) (d : ℤ) {v : ℕ}
    {e : ℕ × ℕ × ℤ}
    (hget : mapGet g.pairToEdgeIndex (pairKey (min i j) (max i j)) = some v)
    (he : g.edges.get? v = some e) :
    addOrUpdateEdge g i j d =
      (if d < e.2.2 then { g with edges := g.edges.set v (e.1, e.2.1, d) } else g,
       none) := by
  simp only [addOrUpdateEdge, edge_lo, edge_hi, hget, he]
  split <;> rfl

theorem adjAtL_double_insert (adj : List AdjSlot) (a b : ℕ)
    (ha : a < adj.length) (hb : b < adj.length) (x y : ℕ) :
    y ∈ adjAtL ((adj.set a (AdjSlot.set (insert b (adjAtL adj a)))).set b
        (AdjSlot.set (insert a
          (adjAtL (adj.set a (AdjSlot.set (insert b (adjAtL adj a)))) b)))) x ↔
      y ∈ adjAtL adj x ∨ (x = a ∧ y = b) ∨ (x = b ∧ y = a) := by
  have hmid : ∀ t, adjAtL (adj.set a (AdjSlot.set (insert b (adjAtL adj a)))) t
      = if t = a then insert b (adjAtL adj a) else adjAtL adj t := by
    intro t
    by_cases hta : t = a
    · subst hta
      rw [if_pos rfl]
      exact adjAtL_set_self _ ha
    · rw [if_neg hta]
      exact adjAtL_set_ne _ hta
  have hfin : ∀ t, adjAtL ((adj.set a (AdjSlot.set (insert b (adjAtL adj a)))).set b
      (AdjSlot.set (insert a
        (adjAtL (adj.set a (AdjSlot.set (insert b (adjAtL adj a)))) b)))) t
      = if t = b then insert a
          (adjAtL (adj.set a (AdjSlot.set (insert b (adjAtL adj a)))) b)
        else adjAtL (adj.set a (AdjSlot.set (insert b (adjAtL adj a)))) t := by
    intro t
    by_cases htb : t = b
    · subst htb
      rw [if_pos rfl]
      exact adjAtL_set_self _ (by simpa using hb)
    · rw [if_neg htb]
      exact adjAtL_set_ne _ htb
  rw [hfin x, hmid b]
  by_cases hxb : x = b
  · subst hxb
    rw [if_pos rfl]
    by_cases hba : x = a
    · subst hba
      rw [if_pos rfl]
      simp only [Finset.mem_insert, eq_self_iff_true, true_and]
      tauto
    · rw [if_neg hba]
      simp only [Finset.mem_insert, eq_self_iff_true, true_and, hba, false_and,
        false_or]
      tauto
  · rw [if_neg hxb, hmid x]
    by_cases hxa : x = a
    · subst hxa
      rw [if_pos rfl]
      simp only [Finset.mem_insert, eq_self_iff_true, true_and, hxb, false_and,
        or_false]
      tauto
    · rw [if_neg hxa]
      simp only [hxa, hxb, false_and, or_false]

theorem exists_date_mem_set (edges : List (ℕ × ℕ × ℤ)) (v : ℕ) (e : ℕ × ℕ × ℤ)
    (d : ℤ) (he : edges.get? v = some e) (p q : ℕ) :
    (∃ x, (p, q, x) ∈ edges.set v (e.1, e.2.1, d)) ↔ ∃ x, (p, q, x) ∈ edges := by
  have hv : v < edges.length := by
    by_contra hge
    rw [get?_len_le edges (Nat.le_of_not_lt hge)] at he
    exact Option.noConfusion he
  constructor
  · rintro ⟨x, hx⟩
    rcases List.mem_or_eq_of_mem_set hx with hmem | heq
    · exact ⟨x, hmem⟩
    · refine ⟨e.2.2, ?_⟩
      have : (p, q, e.2.2) = e := by
        rw [Prod.ext_iff, Prod.ext_iff] at heq ⊢
        exact ⟨heq.1, heq.2.1, rfl⟩
      rw [this]
      exact (mem_iff_get? _ _).mpr ⟨v, he⟩
  · rintro ⟨x, hx⟩
    obtain ⟨w, hw⟩ := (mem_iff_get? _ _).mp hx
    by_cases hwv : w = v
    · subst hwv
      rw [he] at hw
      refine ⟨d, ?_⟩
      have : (p, q, d) = (e.1, e.2.1, d) := by
        have h2 : (p, q, x) = e := by
          injection hw with h3
          exact h3.symm
        rw [Prod.ext_iff, Prod.ext_iff] at h2 ⊢
        exact ⟨h2.1, h2.2.1, rfl⟩
      rw [this]
      exact (mem_iff_get? _ _).mpr ⟨w, get?_set_self _ _ _ hv⟩
    · exact ⟨x, (mem_iff_get? _ _).mpr ⟨w, by rw [get?_set_ne _ _ _ _ hwv]; exact hw⟩⟩

theorem graphInv_addOrUpdateEdge (g : Graph) (i j : ℕ) (d : ℤ) (h : GraphInv g)
    (hi : isLive g i) (hj : isLive g j) :
    (addOrUpdateEdge g i j d).2 = none ∧
    (addOrUpdateEdge g i j d).1.nodes = g.nodes ∧
    GraphInv (addOrUpdateEdge g i j d).1 := by
  have hilt : i < g.nodes.length := isLive_lt hi
  have hjlt : j < g.nodes.length := isLive_lt hj
  have ha : min i j < g.adj.length := by rw [h.lenEq]; omega
  have hb : max i j < g.adj.length := by rw [h.lenEq]; omega
  cases hget : mapGet g.pairToEdgeIndex (pairKey (min i j) (max i j)) with
  | none =>
    rw [addOrUpdateEdge_fresh_eq g i j d ha hb h.adjDef hget]
    refine ⟨rfl, rfl, ?_⟩
    constructor
    · simpa using h.lenEq
    · intro x hx
      simp only [List.length_set] at hx
      by_cases hxb : x = max i j
      · subst hxb
        rw [getD_set_self _ _ _ (by simpa using hb)]
        simp
      · rw [getD_set_ne _ _ _ hxb]
        by_cases hxa : x = min i j
        · subst hxa
          rw [getD_set_self _ _ _ ha]
          simp
        · rw [getD_set_ne _ _ _ hxa]
          exact h.adjDef x hx
    · intro e he
      simp only [List.mem_append, List.mem_singleton] at he
      rcases he with he | he
      · obtain ⟨l1, l2⟩ := h.liveEnds e he
        exact ⟨l1, l2⟩
      · subst he
        constructor
        · simp only
          rcases min_cases i j with ⟨hm, _⟩ | ⟨hm, _⟩ <;> rw [hm] <;>
            first
            | exact hi
            | exact hj
        · simp only
          rcases max_cases i j with ⟨hm, _⟩ | ⟨hm, _⟩ <;> rw [hm] <;>
            first
            | exact hi
            | exact hj
    · intro e he
      simp only [List.mem_append, List.mem_singleton] at he
      rcases he with he | he
      · exact h.canon e he
      · subst he
        simp only
        omega
    · intro v e he
      by_cases hv : v < g.edges.length
      · rw [get?_append_left _ _ hv] at he
        have hold := h.keyComplete v e he
        have hkne : pairKey e.1 e.2.1 ≠ pairKey (min i j) (max i j) := by
          intro hk
          rw [hk, hget] at hold
          exact Option.noConfusion hold
        rw [mapGet_mapSet_ne _ _ _ _ hkne]
        exact hold
      · by_cases hveq : v = g.edges.length
        · subst hveq
          rw [get?_append_length] at he
          injection he with he2
          subst he2
          simp only
          exact mapGet_mapSet_self _ _ _
        · rw [get?_len_le _ (by simp; omega)] at he
          exact Option.noConfusion he
    · intro k v hkv
      by_cases hk : k = pairKey (min i j) (max i j)
      · subst hk
        rw [mapGet_mapSet_self] at hkv
        injection hkv with hv2
        subst hv2
        exact ⟨(min i j, max i j, d), get?_append_length _ _, rfl⟩
      · rw [mapGet_mapSet_ne _ _ _ _ hk] at hkv
        obtain ⟨e, he, hkey⟩ := h.keySound k v hkv
        have hvlt : v < g.edges.length := by
          by_contra hge
          rw [get?_len_le _ (Nat.le_of_not_lt hge)] at he
          exact Option.noConfusion he
        exact ⟨e, by rw [get?_append_left _ _ hvlt]; exact he, hkey⟩
    · intro x y
      rw [adjAt_eq_adjAtL]
      simp only
      rw [adjAtL_double_insert g.adj (min i j) (max i j) ha hb x y]
      have hold := h.adjExact x y
      rw [adjAt_eq_adjAtL] at hold
      rw [hold]
      have hiff : ((x = min i j ∧ y = max i j) ∨ (x = max i j ∧ y = min i j)) ↔
          (min x y = min i j ∧ max x y = max i j) := by omega
      constructor
      · rintro (⟨dd, hdd⟩ | hcase)
        · exact ⟨dd, by simp [List.mem_append]; exact Or.inl hdd⟩
        · refine ⟨d, ?_⟩
          simp only [List.mem_append, List.mem_singleton]
          right
          have := hiff.mp hcase
          rw [Prod.ext_iff, Prod.ext_iff]
          exact ⟨this.1, this.2, rfl⟩
      · rintro ⟨dd, hdd⟩
        simp only [List.mem_append, List.mem_singleton] at hdd
        rcases hdd with hdd | hdd
        · exact Or.inl ⟨dd, hdd⟩
        · right
          rw [Prod.ext_iff, Prod.ext_iff] at hdd
          exact hiff.mpr ⟨hdd.1, hdd.2.1⟩
  | some v =>
    obtain ⟨e, he, hkey⟩ := h.keySound _ v hget
    rw [addOrUpdateEdge_existing_eq g i j d hget he]
    by_cases hd : d < e.2.2
    · rw [if_pos hd]
      refine ⟨rfl, rfl, ?_⟩
      have hvlt : v < g.edges.length := by
        by_contra hge
        rw [get?_len_le _ (Nat.le_of_not_lt hge)] at he
        exact Option.noConfusion he
      have hmeme : e ∈ g.edges := (mem_iff_get? _ _).mpr ⟨v, he⟩
      constructor
      · simpa using h.lenEq
      · exact h.adjDef
      · intro e2 he2
        rcases List.mem_or_eq_of_mem_set he2 with hmem | heq
        · exact h.liveEnds e2 hmem
        · subst heq
          exact h.liveEnds e hmeme
      · intro e2 he2
        rcases List.mem_or_eq_of_mem_set he2 with hmem | heq
        · exact h.canon e2 hmem
        · subst heq
          exact h.canon e hmeme
      · intro w e2 he2
        by_cases hwv : w = v
        · subst hwv
          rw [get?_set_self _ _ _ hvlt] at he2
          injection he2 with he3
          subst he3
          simpa using h.keyComplete w e he
        · rw [get?_set_ne _ _ _ _ hwv] at he2
          exact h.keyComplete w e2 he2
      · intro k w hkw
        obtain ⟨e2, he2, hkey2⟩ := h.keySound k w hkw
        by_cases hwv : w = v
        · subst hwv
          rw [he] at he2
          injection he2 with he3
          refine ⟨(e.1, e.2.1, d), get?_set_self _ _ _ hvlt, ?_⟩
          show k = pairKey e.1 e.2.1
          rw [he3]
          exact hkey2
        · exact ⟨e2, by rw [get?_set_ne _ _ _ _ hwv]; exact he2, hkey2⟩
      · intro x y
        rw [adjAt_eq_adjAtL]
        simp only
        have hold := h.adjExact x y
        rw [adjAt_eq_adjAtL] at hold
        rw [hold]
        exact (exists_date_mem_set g.edges v e d he _ _).symm
    · rw [if_neg hd]
      exact ⟨rfl, rfl, h⟩

theorem getD_map_const {α β : Type} (l : List α) (c d : β) (x : ℕ) :
    (l.map (fun _ => c)).getD x d = if x < l.length then c else d := by
  rw [List.getD_eq_getElem?_getD, List.getElem?_map]
  by_cases hx : x < l.length
  · rw [if_pos hx, List.getElem?_eq_getElem hx]
    rfl
  · rw [if_neg hx, List.getElem?_eq_none (by omega)]
    rfl

theorem rebuildLoop_spec (es : List (ℕ × ℕ × ℤ)) :
    ∀ (e0 : ℕ) (m0 : List (String × ℕ)) (adj0 : List AdjSlot),
    (∀ x, x < adj0.length → adj0.getD x AdjSlot.undef ≠ AdjSlot.undef) →
    (∀ e ∈ es, e.1 < adj0.length ∧ e.2.1 < adj0.length) →
    (∀ e ∈ es, e.1 ≤ e.2.1) →
    (∀ e ∈ es, mapGet m0 (pairKey e.1 e.2.1) = none) →
    List.Pairwise (fun e1 e2 => pairKey e1.1 e1.2.1 ≠ pairKey e2.1 e2.2.1) es →
    ∃ m adj1, rebuildLoop es e0 m0 adj0 = ((m, adj1), none) ∧
      adj1.length = adj0.length ∧
      (∀ x, x < adj1.length → adj1.getD x AdjSlot.undef ≠ AdjSlot.undef) ∧
      (∀ k, (∀ e ∈ es, k ≠ pairKey e.1 e.2.1) → mapGet m k = mapGet m0 k) ∧
      (∀ w e, es.get? w = some e → mapGet m (pairKey e.1 e.2.1) = some (e0 + w)) ∧
      (∀ k v, mapGet m k = some v →
        (∃ w e, es.get? w = some e ∧ k = pairKey e.1 e.2.1 ∧ v = e0 + w) ∨
          mapGet m0 k = some v) ∧
      (∀ x y, y ∈ adjAtL adj1 x ↔ y ∈ adjAtL adj0 x ∨
        ∃ dd, (min x y, max x y, dd) ∈ es) := by
  induction es with
  | nil =>
    intro e0 m0 adj0 hdef hends hcanon hdisj hnodup
    refine ⟨m0, adj0, rfl, rfl, hdef, fun k _ => rfl, ?_, ?_, ?_⟩
    · intro w e hw
      simp at hw
    · intro k v hv
      exact Or.inr hv
    · intro x y
      simp
  | cons e rest ih =>
    intro e0 m0 adj0 hdef hends hcanon hdisj hnodup
    obtain ⟨a, b, dd⟩ := e
    have habm := hends (a, b, dd) (List.mem_cons_self _ _)
    have hal : a < adj0.length := habm.1
    have hbl : b < adj0.length := by simpa using habm.2
    have hcab : a ≤ b := by simpa using hcanon (a, b, dd) (List.mem_cons_self _ _)
    obtain ⟨hhead, htail⟩ := List.pairwise_cons.mp hnodup
    have h1 := @adjAdd_ok adj0 a b hdef hal
    have hdefA1 : ∀ x, x < (adj0.set a
        (AdjSlot.set (insert b (adjAtL adj0 a)))).length →
        (adj0.set a (AdjSlot.set (insert b (adjAtL adj0 a)))).getD x AdjSlot.undef
          ≠ AdjSlot.undef := by
      intro x hx
      simp only [List.length_set] at hx
      by_cases hxa : x = a
      · subst hxa
        rw [getD_set_self _ _ _ hal]
        simp
      · rw [getD_set_ne _ _ _ hxa]
        exact hdef x hx
    have h2 := @adjAdd_ok (adj0.set a (AdjSlot.set (insert b (adjAtL adj0 a))))
      b a hdefA1 (by simpa using hbl)
    have hmem2 := adjAtL_double_insert adj0 a b hal hbl
    have hdefA2 : ∀ x, x < ((adj0.set a (AdjSlot.set (insert b (adjAtL adj0 a)))).set b
        (AdjSlot.set (insert a
          (adjAtL (adj0.set a (AdjSlot.set (insert b (adjAtL adj0 a)))) b)))).length →
        ((adj0.set a (AdjSlot.set (insert b (adjAtL adj0 a)))).set b
          (AdjSlot.set (insert a
            (adjAtL (adj0.set a (AdjSlot.set (insert b (adjAtL adj0 a)))) b)))).getD x
          AdjSlot.undef ≠ AdjSlot.undef := by
      intro x hx
      simp only [List.length_set] at hx
      by_cases hxb : x = b
      · subst hxb
        rw [getD_set_self _ _ _ (by simpa using hbl)]
        simp
      · rw [getD_set_ne _ _ _ hxb]
        exact hdefA1 x (by simpa using hx)
    have ihres := ih (e0 + 1) (mapSet m0 (pairKey a b) e0)
      ((adj0.set a (AdjSlot.set (insert b (adjAtL adj0 a)))).set b
        (AdjSlot.set (insert a
          (adjAtL (adj0.set a (AdjSlot.set (insert b (adjAtL adj0 a)))) b))))
      hdefA2
      (by
        intro e2 he2
        have := hends e2 (List.mem_cons_of_mem _ he2)
        simpa using this)
      (fun e2 he2 => hcanon e2 (List.mem_cons_of_mem _ he2))
      (by
        intro e2 he2
        rw [mapGet_mapSet_ne _ _ _ _ (Ne.symm (hhead e2 he2))]
        exact hdisj e2 (List.mem_cons_of_mem _ he2))
      htail
    obtain ⟨m, adj1, hEq, hlen, hdef1, hframe, hcompl, hsound, hadj⟩ := ihres
    refine ⟨m, adj1, ?_, ?_, hdef1, ?_, ?_, ?_, ?_⟩
    · simp only [rebuildLoop, h1, h2]
      exact hEq
    · rw [hlen]
      simp
    · intro k hk
      rw [hframe k (fun e2 he2 => hk e2 (List.mem_cons_of_mem _ he2))]
      exact mapGet_mapSet_ne _ _ _ _ (hk (a, b, dd) (List.mem_cons_self _ _))
    · intro w e2 hw
      cases w with
      | zero =>
        rw [List.get?_cons_zero] at hw
        injection hw with hw2
        subst hw2
        rw [hframe _ (fun e3 he3 => hhead e3 he3)]
        simpa using mapGet_mapSet_self m0 (pairKey a b) e0
      | succ w2 =>
        rw [List.get?_cons_succ] at hw
        have := hcompl w2 e2 hw
        have harith : e0 + 1 + w2 = e0 + (w2 + 1) := by omega
        rw [harith] at this
        exact this
    · intro k v hv
      rcases hsound k v hv with ⟨w, e2, hw, hk, hveq⟩ | hm1
      · refine Or.inl ⟨w + 1, e2, by rw [List.get?_cons_succ]; exact hw, hk, by omega⟩
      · by_cases hkab : k = pairKey a b
        · subst hkab
          rw [mapGet_mapSet_self] at hm1
          injection hm1 with hv2
          refine Or.inl ⟨0, (a, b, dd), List.get?_cons_zero, rfl, by omega⟩
        · rw [mapGet_mapSet_ne _ _ _ _ hkab] at hm1
          exact Or.inr hm1
    · intro x y
      rw [hadj x y, hmem2 x y]
      have hiff : ((x = a ∧ y = b) ∨ (x = b ∧ y = a)) ↔
          (min x y = a ∧ max x y = b) := by omega
      constructor
      · rintro ((hadj0 | hpair) | ⟨dd2, hdd2⟩)
        · exact Or.inl hadj0
        · refine Or.inr ⟨dd, ?_⟩
          have hm := hiff.mp hpair
          rw [List.mem_cons]
          left
          rw [Prod.ext_iff, Prod.ext_iff]
          exact ⟨hm.1, hm.2, rfl⟩
        · exact Or.inr ⟨dd2, List.mem_cons_of_mem _ hdd2⟩
      · rintro (hadj0 | ⟨dd2, hdd2⟩)
        · exact Or.inl (Or.inl hadj0)
        · rcases List.mem_cons.mp hdd2 with heq | hmem
          · left
            right
            rw [Prod.ext_iff, Prod.ext_iff] at heq
            exact hiff.mpr ⟨heq.1, heq.2.1⟩
          · right
            exact ⟨dd2, hmem⟩

theorem adjAtL_map_empty (l : List AdjSlot) (x : ℕ) :
    adjAtL (l.map (fun _ => AdjSlot.set ∅)) x = ∅ := by
  unfold adjAtL
  rw [getD_map_const]
  by_cases hx : x < l.length
  · rw [if_pos hx]
  · rw [if_neg hx]

theorem edges_keys_pairwise {g : Graph} (h : GraphInv g) :
    List.Pairwise (fun e1 e2 => pairKey e1.1 e1.2.1 ≠ pairKey e2.1 e2.2.1) g.edges := by
  rw [List.pairwise_iff_get]
  intro i j hij hkey
  have h1 := h.keyComplete i (g.edges.get i) ((List.get?_eq_get i.isLt).symm ▸ rfl)
  have h2 := h.keyComplete j (g.edges.get j) ((List.get?_eq_get j.isLt).symm ▸ rfl)
  rw [hkey] at h1
  rw [h1] at h2
  injection h2 with h3
  omega

theorem deleteNode_free (g : Graph) (i : ℕ) (h : isFree g i = true) :
    deleteNode g i = ((g, []), none) := by
  unfold deleteNode
  rw [show (g.nodes.getD i Slot.undef).isNull = true from h]
  rfl

theorem deleteNode_proceed_spec (g : Graph) (i : ℕ) (h : GraphInv g)
    (hns : isFree g i = false) :
    (deleteNode g i).2 = none ∧
    (deleteNode g i).1.2
      = (g.edges.filter (fun e => e.1 = i ∨ e.2.1 = i)).map (fun e => (e.1, e.2.1)) ∧
    (deleteNode g i).1.1.edges = g.edges.filter (fun e => ¬(e.1 = i ∨ e.2.1 = i)) ∧
    (deleteNode g i).1.1.nodes = listWrite g.nodes i Slot.null Slot.undef ∧
    (∀ x y, y ∈ adjAt (deleteNode g i).1.1 x ↔
      ∃ dd, (min x y, max x y, dd) ∈ g.edges.filter (fun e => ¬(e.1 = i ∨ e.2.1 = i))) ∧
    GraphInv (deleteNode g i).1.1 := by
  have hkept : ∀ e, e ∈ g.edges.filter (fun e => ¬(e.1 = i ∨ e.2.1 = i)) →
      e ∈ g.edges ∧ e.1 ≠ i ∧ e.2.1 ≠ i := by
    intro e he
    have := List.mem_filter.mp he
    refine ⟨this.1, ?_⟩
    have h2 := this.2
    simp at h2
    exact h2
  have hlw : (listWrite g.adj i (AdjSlot.set ∅) AdjSlot.undef).length
      = max g.adj.length (i + 1) := listWrite_length _ _ _ _
  obtain ⟨m, adj1, hEq, hlen, hdef1, _hframe, hcompl, hsound, hadj⟩ :=
    rebuildLoop_spec (g.edges.filter (fun e => ¬(e.1 = i ∨ e.2.1 = i))) 0 []
      ((listWrite g.adj i (AdjSlot.set ∅) AdjSlot.undef).map (fun _ => AdjSlot.set ∅))
      (by
        intro x hx
        rw [getD_map_const]
        simp only [List.length_map] at hx
        rw [if_pos hx]
        simp)
      (by
        intro e he
        obtain ⟨hmem, hne1, hne2⟩ := hkept e he
        obtain ⟨l1, l2⟩ := h.liveEnds e hmem
        have b1 := isLive_lt l1
        have b2 := isLive_lt l2
        simp only [List.length_map, hlw]
        rw [← h.lenEq] at b1 b2
        omega)
      (fun e he => h.canon e (hkept e he).1)
      (fun e _ => rfl)
      ((edges_keys_pairwise h).filter _)
  have hdel : deleteNode g i =
      (({ nodes := listWrite g.nodes i Slot.null Slot.undef
          edges := g.edges.filter (fun e => ¬(e.1 = i ∨ e.2.1 = i))
          pairToEdgeIndex := m
          adj := adj1
          springK := g.springK, springRest := g.springRest, repelK := g.repelK
          closeRepelK := g.closeRepelK, centerK := g.centerK, jitter := g.jitter },
        (g.edges.filter (fun e => e.1 = i ∨ e.2.1 = i)).map (fun e => (e.1, e.2.1))),
       none) := by
    unfold deleteNode
    rw [show (g.nodes.getD i Slot.undef).isNull = false from hns]
    simp only [Bool.false_eq_true, if_false, rebuildEdgeIndex, hEq]
  rw [hdel]
  refine ⟨rfl, rfl, rfl, rfl, ?_, ?_⟩
  · intro x y
    rw [adjAt_eq_adjAtL]
    simp only
    rw [hadj x y, adjAtL_map_empty]
    simp
  constructor
  · simp only
    rw [hlen]
    simp only [List.length_map, hlw, listWrite_length, h.lenEq]
  · intro x hx
    simp only at hx ⊢
    exact hdef1 x hx
  · intro e he
    simp only at he
    obtain ⟨hmem, hne1, hne2⟩ := hkept e he
    obtain ⟨l1, l2⟩ := h.liveEnds e hmem
    constructor
    · obtain ⟨nd, hnd⟩ := l1
      refine ⟨nd, ?_⟩
      simp only [isLive]
      rw [getD_listWrite_ne _ _ _ _ hne1]
      exact hnd
    · obtain ⟨nd, hnd⟩ := l2
      refine ⟨nd, ?_⟩
      simp only [isLive]
      rw [getD_listWrite_ne _ _ _ _ hne2]
      exact hnd
  · intro e he
    simp only at he
    exact h.canon e (hkept e he).1
  · intro v e he
    simp only at he ⊢
    have := hcompl v e he
    simpa using this
  · intro k v hkv
    simp only at hkv ⊢
    rcases hsound k v hkv with ⟨w, e, hw, hk, hveq⟩ | hm0
    · exact ⟨e, by rw [show v = w by omega]; exact hw, hk⟩
    · exact absurd hm0 (by simp [mapGet])
  · intro x y
    rw [adjAt_eq_adjAtL]
    simp only
    rw [hadj x y, adjAtL_map_empty]
    simp

theorem getD_lt_of_ne_default {α : Type} (l : List α) (d : α) {i : ℕ}
    (h : l.getD i d ≠ d) : i < l.length := by
  by_contra hge
  exact h (getD_out l d (Nat.le_of_not_lt hge))

theorem graphInv_renameNode (g : Graph) (i : ℕ) (nm : String) (h : GraphInv g) :
    GraphInv (renameNode g i nm).1 := by
  unfold renameNode
  cases hc : g.nodes.getD i Slot.undef with
  | undef => exact h
  | null => exact h
  | node n =>
    have hlt : i < g.nodes.length :=
      getD_lt_of_ne_default _ _ (by rw [hc]; exact fun hne => Slot.noConfusion hne)
    simp only
    constructor
    · simp only [List.length_set]
      exact h.lenEq
    · exact h.adjDef
    · intro e he
      simp only at he
      obtain ⟨l1, l2⟩ := h.liveEnds e he
      constructor
      · by_cases hei : e.1 = i
        · refine ⟨{ n with name := nm }, ?_⟩
          simp only [isLive, hei]
          exact getD_set_self _ _ _ hlt
        · obtain ⟨nd, hnd⟩ := l1
          exact ⟨nd, by
            simp only [isLive]
            rw [getD_set_ne _ _ _ hei]
            exact hnd⟩
      · by_cases hei : e.2.1 = i
        · refine ⟨{ n with name := nm }, ?_⟩
          simp only [isLive, hei]
          exact getD_set_self _ _ _ hlt
        · obtain ⟨nd, hnd⟩ := l2
          exact ⟨nd, by
            simp only [isLive]
            rw [getD_set_ne _ _ _ hei]
            exact hnd⟩
    · exact h.canon
    · exact h.keyComplete
    · exact h.keySound
    · exact h.adjExact

theorem update_frame (g : Graph) (t : ℝ) :
    (update g t).1.edges = g.edges ∧
    (update g t).1.pairToEdgeIndex = g.pairToEdgeIndex ∧
    (update g t).1.adj = g.adj ∧
    (update g t).1.nodes.length = g.nodes.length ∧
    (∀ x, isLive (update g t).1 x ↔ isLive g x) := by
  unfold update
  split
  · exact ⟨rfl, rfl, rfl, rfl, fun x => Iff.rfl⟩
  · split
    · exact ⟨rfl, rfl, rfl, rfl, fun x => Iff.rfl⟩
    · split
      · exact ⟨rfl, rfl, rfl, rfl, fun x => Iff.rfl⟩
      · refine ⟨rfl, rfl, rfl, by simp [integrate], ?_⟩
        intro x
        simp only [integrate, isLive]
        rw [List.getD_eq_getElem?_getD, List.getD_eq_getElem?_getD,
          List.getElem?_mapIdx]
        cases hx : g.nodes[x]? with
        | none => simp
        | some s =>
          cases s <;> simp

theorem graphInv_update (g : Graph) (t : ℝ) (h : GraphInv g) :
    GraphInv (update g t).1 := by
  obtain ⟨he, hp, ha, hl, hlive⟩ := update_frame g t
  constructor
  · rw [ha, hl]
    exact h.lenEq
  · rw [ha]
    exact h.adjDef
  · intro e hmem
    rw [he] at hmem
    obtain ⟨l1, l2⟩ := h.liveEnds e hmem
    exact ⟨(hlive e.1).mpr l1, (hlive e.2.1).mpr l2⟩
  · intro e hmem
    rw [he] at hmem
    exact h.canon e hmem
  · intro v e hmem
    rw [he] at hmem
    rw [hp]
    exact h.keyComplete v e hmem
  · intro k v hkv
    rw [hp] at hkv
    rw [he]
    exact h.keySound k v hkv
  · intro x y
    rw [adjAt_eq_adjAtL, ha, he]
    exact h.adjExact x y

theorem findByName_some (l : List Slot) (name : String) :
    ∀ idx, findByName l name = Except.ok (some idx) →
    (∃ nd, l.getD idx Slot.undef = Slot.node nd ∧ nd.name = name) ∧
    (∀ k, k < idx → ∀ nd, l.getD k Slot.undef = Slot.node nd → nd.name ≠ name) := by
  induction l with
  | nil =>
    intro idx h
    simp [findByName] at h
  | cons s rest ih =>
    intro idx h
    cases s with
    | undef => simp [findByName] at h
    | null =>
      simp only [findByName, Except.map] at h
      cases hr : findByName rest name with
      | error e => rw [hr] at h; simp at h
      | ok o =>
        rw [hr] at h
        simp only at h
        injection h with h2
        cases o with
        | none => simp at h2
        | some j =>
          have hj : idx = j + 1 := by
            simp [Option.map] at h2
            omega
          subst hj
          obtain ⟨hex, hmin⟩ := ih j hr
          refine ⟨by simpa using hex, ?_⟩
          intro k hk nd hnd
          cases k with
          | zero => simp at hnd
          | succ k2 =>
            simp only [List.getD_cons_succ] at hnd
            exact hmin k2 (by omega) nd hnd
    | node n =>
      by_cases hn : n.name = name
      · rw [show findByName (Slot.node n :: rest) name = Except.ok (some 0) by
          simp [findByName, hn]] at h
        injection h with h2
        injection h2 with h3
        subst h3
        exact ⟨⟨n, by simp, hn⟩, fun k hk => by omega⟩
      · rw [show findByName (Slot.node n :: rest) name
            = (findByName rest name).map (Option.map Nat.succ) by
          simp [findByName, hn]] at h
        simp only [Except.map] at h
        cases hr : findByName rest name with
        | error e => rw [hr] at h; simp at h
        | ok o =>
          rw [hr] at h
          simp only at h
          injection h with h2
          cases o with
          | none => simp at h2
          | some j =>
            have hj : idx = j + 1 := by
              simp [Option.map] at h2
              omega
            subst hj
            obtain ⟨hex, hmin⟩ := ih j hr
            refine ⟨by simpa using hex, ?_⟩
            intro k hk nd hnd
            cases k with
            | zero =>
              simp only [List.getD_cons_zero] at hnd
              injection hnd with h4
              subst h4
              exact hn
            | succ k2 =>
              simp only [List.getD_cons_succ] at hnd
              exact hmin k2 (by omega) nd hnd

theorem findByName_none (l : List Slot) (name : String) :
    findByName l name = Except.ok none →
    ∀ k nd, l.getD k Slot.undef = Slot.node nd → nd.name ≠ name := by
  induction l with
  | nil =>
    intro _ k nd hnd
    rw [getD_out _ _ (by simp)] at hnd
    exact Slot.noConfusion hnd
  | cons s rest ih =>
    intro h k nd hnd
    cases s with
    | undef => simp [findByName] at h
    | null =>
      simp only [findByName, Except.map] at h
      cases hr : findByName rest name with
      | error e => rw [hr] at h; simp at h
      | ok o =>
        rw [hr] at h
        simp only at h
        injection h with h2
        cases o with
        | some j => simp [Option.map] at h2
        | none =>
          cases k with
          | zero => simp at hnd
          | succ k2 => exact ih hr k2 nd (by simpa using hnd)
    | node n =>
      by_cases hn : n.name = name
      · rw [show findByName (Slot.node n :: rest) name = Except.ok (some 0) by
          simp [findByName, hn]] at h
        injection h with h2
        simp at h2
      · rw [show findByName (Slot.node n :: rest) name
            = (findByName rest name).map (Option.map Nat.succ) by
          simp [findByName, hn]] at h
        simp only [Except.map] at h
        cases hr : findByName rest name with
        | error e => rw [hr] at h; simp at h
        | ok o =>
          rw [hr] at h
          simp only at h
          injection h with h2
          cases o with
          | some j => simp [Option.map] at h2
          | none =>
            cases k with
            | zero =>
              simp only [List.getD_cons_zero] at hnd
              injection hnd with h4
              subst h4
              exact hn
            | succ k2 => exact ih hr k2 nd (by simpa using hnd)

theorem findFreeSlot_first (l : List Slot) :
    ∀ idx, findFreeSlot l = some idx →
    ∀ k, k < idx → l.getD k Slot.undef ≠ Slot.null := by
  induction l with
  | nil => intro idx h; simp [findFreeSlot] at h
  | cons s rest ih =>
    intro idx h k hk
    cases s with
    | null =>
      simp [findFreeSlot] at h
      omega
    | undef =>
      simp only [findFreeSlot, Option.map_eq_some'] at h
      obtain ⟨j, hj, hidx⟩ := h
      subst hidx
      cases k with
      | zero => simp
      | succ k2 =>
        intro hc
        exact ih j hj k2 (by omega) (by simpa using hc)
    | node n =>
      simp only [findFreeSlot, Option.map_eq_some'] at h
      obtain ⟨j, hj, hidx⟩ := h
      subst hidx
      cases k with
      | zero => simp
      | succ k2 =>
        intro hc
        exact ih j hj k2 (by omega) (by simpa using hc)

theorem findFreeSlot_none (l : List Slot) (h : findFreeSlot l = none) :
    ∀ k, l.getD k Slot.undef ≠ Slot.null := by
  induction l with
  | nil =>
    intro k hc
    rw [getD_out _ _ (by simp)] at hc
    exact Slot.noConfusion hc
  | cons s rest ih =>
    intro k hc
    cases s with
    | null => simp [findFreeSlot] at h
    | undef =>
      simp only [findFreeSlot, Option.map_eq_none'] at h
      cases k with
      | zero => simp at hc
      | succ k2 => exact ih h k2 (by simpa using hc)
    | node n =>
      simp only [findFreeSlot, Option.map_eq_none'] at h
      cases k with
      | zero => simp at hc
      | succ k2 => exact ih h k2 (by simpa using hc)

theorem getOrCreate_mono (g : Graph) (name : String) :
    ∀ x, isLive g x → isLive (getOrCreateNodeIndex g name).1 x := by
  intro x hx
  unfold getOrCreateNodeIndex
  split
  · exact hx
  · exact hx
  · split
    · rename_i idx hfree
      obtain ⟨hlt, hnull⟩ := findFreeSlot_spec g.nodes idx hfree
      have hxi : x ≠ idx := by
        intro hc
        obtain ⟨nd, hnd⟩ := hx
        rw [hc, hnull] at hnd
        exact Slot.noConfusion hnd
      obtain ⟨nd, hnd⟩ := hx
      exact ⟨nd, by
        simp only [isLive]
        rw [getD_listWrite_ne _ _ _ _ hxi]
        exact hnd⟩
    · obtain ⟨nd, hnd⟩ := hx
      exact ⟨nd, by
        simp only [isLive]
        rw [getD_append_left _ _ _ (isLive_lt ⟨nd, hnd⟩)]
        exact hnd⟩

theorem getOrCreate_ok_live (g : Graph) (name : String) (idx : ℕ)
    (h : (getOrCreateNodeIndex g name).2 = Except.ok idx) :
    isLive (getOrCreateNodeIndex g name).1 idx := by
  unfold getOrCreateNodeIndex at h ⊢
  cases hf : findByName g.nodes name with
  | error e =>
    rw [hf] at h
    simp at h
  | ok o =>
    rw [hf] at h
    cases o with
    | some idx2 =>
      simp only at h ⊢
      injection h with h2
      subst h2
      obtain ⟨⟨nd, hnd, _⟩, _⟩ := findByName_some g.nodes name idx2 hf
      exact ⟨nd, hnd⟩
    | none =>
      cases hfr : findFreeSlot g.nodes with
      | some idx2 =>
        rw [hfr] at h
        simp only at h ⊢
        injection h with h2
        subst h2
        exact ⟨newNode name, getD_listWrite_self _ _ _ _⟩
      | none =>
        rw [hfr] at h
        simp only at h ⊢
        injection h with h2
        subst h2
        exact ⟨newNode name, getD_append_self _ _ _⟩

theorem isLive_of_nodes_eq {g g2 : Graph} (h : g2.nodes = g.nodes) (x : ℕ) :
    isLive g2 x ↔ isLive g x := by
  unfold isLive
  rw [h]

theorem listPairs_mem (l : List ℕ) : ∀ p ∈ listPairs l, p.1 ∈ l ∧ p.2 ∈ l := by
  induction l with
  | nil =>
    intro p hp
    simp [listPairs] at hp
  | cons x rest ih =>
    intro p hp
    simp only [listPairs, List.mem_append, List.mem_map] at hp
    rcases hp with ⟨y, hy, hpy⟩ | hp
    · subst hpy
      exact ⟨List.mem_cons_self _ _, List.mem_cons_of_mem _ hy⟩
    · obtain ⟨h1, h2⟩ := ih p hp
      exact ⟨List.mem_cons_of_mem _ h1, List.mem_cons_of_mem _ h2⟩

theorem resolveNames_mono (names : List String) : ∀ (g : Graph) (x : ℕ),
    isLive g x → isLive (resolveNames g names).1.1 x := by
  induction names with
  | nil =>
    intro g x hx
    exact hx
  | cons nm rest ih =>
    intro g x hx
    have hx1 : isLive (getOrCreateNodeIndex g nm).1 x := getOrCreate_mono g nm x hx
    unfold resolveNames
    simp only
    cases hg : (getOrCreateNodeIndex g nm).2 with
    | error e => exact hx1
    | ok idx => exact ih (getOrCreateNodeIndex g nm).1 x hx1

theorem resolveNames_spec (names : List String) : ∀ (g : Graph), GraphInv g →
    GraphInv (resolveNames g names).1.1 ∧
    ((resolveNames g names).2 = none →
      ∀ i ∈ (resolveNames g names).1.2, isLive (resolveNames g names).1.1 i) := by
  induction names with
  | nil =>
    intro g h
    refine ⟨h, ?_⟩
    intro _ i hi
    simp [resolveNames] at hi
  | cons nm rest ih =>
    intro g h
    have hinv1 : GraphInv (getOrCreateNodeIndex g nm).1 := graphInv_getOrCreate g nm h
    unfold resolveNames
    simp only
    cases hg : (getOrCreateNodeIndex g nm).2 with
    | error e =>
      refine ⟨hinv1, ?_⟩
      intro hc
      simp at hc
    | ok idx =>
      have hlividx : isLive (getOrCreateNodeIndex g nm).1 idx :=
        getOrCreate_ok_live g nm idx hg
      obtain ⟨hinv2, hlive2⟩ := ih (getOrCreateNodeIndex g nm).1 hinv1
      refine ⟨hinv2, ?_⟩
      intro herr i hi
      simp only at herr
      rcases List.mem_cons.mp hi with hieq | himem
      · subst hieq
        exact resolveNames_mono rest (getOrCreateNodeIndex g nm).1 i hlividx
      · exact hlive2 herr i himem


theorem addEdgesLoop_inv (d : ℤ) (ps : List (ℕ × ℕ)) : ∀ (g : Graph), GraphInv g →
    (∀ p ∈ ps, isLive g p.1 ∧ isLive g p.2) →
    GraphInv (addEdgesLoop g ps d).1 := by
  induction ps with
  | nil =>
    intro g h _
    exact h
  | cons p rest ih =>
    intro g h hlive
    obtain ⟨i, j⟩ := p
    obtain ⟨hnone, hnodes, hinv⟩ := graphInv_addOrUpdateEdge g i j d h
      (hlive (i, j) (List.mem_cons_self _ _)).1
      (hlive (i, j) (List.mem_cons_self _ _)).2
    unfold addEdgesLoop
    simp only
    cases hg : (addOrUpdateEdge g i j d).2 with
    | none =>
      apply ih (addOrUpdateEdge g i j d).1 hinv
      intro q hq
      have hql := hlive q (List.mem_cons_of_mem _ hq)
      rw [isLive_of_nodes_eq hnodes, isLive_of_nodes_eq hnodes]
      exact hql
    | some e =>
      rw [hg] at hnone
      exact absurd hnone (by simp)

theorem graphInv_addFriendGroup (g : Graph) (names : List String) (d : ℤ)
    (h : GraphInv g) : GraphInv (addFriendGroup g names d).1 := by
  obtain ⟨hinv, hlive⟩ := resolveNames_spec names g h
  unfold addFriendGroup
  simp only
  cases hr : (resolveNames g names).2 with
  | none =>
    apply addEdgesLoop_inv d (listPairs (resolveNames g names).1.2)
      (resolveNames g names).1.1 hinv
    intro q hq
    obtain ⟨h1, h2⟩ := listPairs_mem (resolveNames g names).1.2 q hq
    exact ⟨hlive hr q.1 h1, hlive hr q.2 h2⟩
  | some e => exact hinv


/-- The graph states reachable from a fresh `Graph` through the public
operations, with `addOrUpdateEdge` restricted to live endpoints. -/
inductive Reachable : Graph → Prop
  | init : Reachable Graph.init
  | getOrCreate (g : Graph) (name : String) : Reachable g →
      Reachable (getOrCreateNodeIndex g name).1
  | addGroup (g : Graph) (names : List String) (d : ℤ) : Reachable g →
      Reachable (addFriendGroup g names d).1
  | addEdge (g : Graph) (i j : ℕ) (d : ℤ) : Reachable g → isLive g i →
      isLive g j → Reachable (addOrUpdateEdge g i j d).1
  | rename (g : Graph) (i : ℕ) (nm : String) : Reachable g →
      Reachable (renameNode g i nm).1
  | del (g : Graph) (i : ℕ) : Reachable g → Reachable (deleteNode g i).1.1
  | step (g : Graph) (t : ℝ) : Reachable g → Reachable (update g t).1

/-- Every reachable state satisfies the internal consistency invariant. -/
theorem reachable_inv {g : Graph} (h : Reachable g) : GraphInv g := by
  induction h with
  | init => exact graphInv_init
  | getOrCreate g name _ ih => exact graphInv_getOrCreate g name ih
  | addGroup g names d _ ih => exact graphInv_addFriendGroup g names d ih
  | addEdge g i j d _ hi hj ih =>
      exact (graphInv_addOrUpdateEdge g i j d ih hi hj).2.2
  | rename g i nm _ ih => exact graphInv_renameNode g i nm ih
  | del g i _ ih =>
      by_cases hf : isFree g i = true
      · rw [deleteNode_free g i hf]
        exact ih
      · exact (deleteNode_proceed_spec g i ih
          ((Bool.not_eq_true _) ▸ hf)).2.2.2.2.2
  | step g t _ ih => exact graphInv_update g t ih

theorem degree_eq_card {g : Graph} (h : GraphInv g) {j : ℕ} (hj : j < g.adj.length) :
    degree g j = Except.ok (adjAt g j).card := by
  unfold degree
  cases hc : g.adj.getD j AdjSlot.undef with
  | undef => exact absurd hc (h.adjDef j hj)
  | set s => rw [adjAt_eq_adjAtL, adjAtL_eq hc]

theorem set_append_last {α : Type} (l : List α) (x y : α) :
    (l ++ [x]).set l.length y = l ++ [y] := by
  induction l with
  | nil => rfl
  | cons a rest ih => simp [List.set, ih]

/-- `nameAt` read off a raw slot array. -/
def nameAtL (l : List Slot) (k : ℕ) : Option String :=
  match l.getD k Slot.undef with
  | Slot.node nd => some nd.name
  | _ => none

theorem nameAt_eq_nameAtL (g : Graph) (k : ℕ) : nameAt g k = nameAtL g.nodes k := rfl

theorem findByName_first (l : List Slot) (name : String) :
    ∀ k, (∀ s ∈ l, s ≠ Slot.undef) → nameAtL l k = some name →
    (∀ k2, k2 < k → nameAtL l k2 ≠ some name) →
    findByName l name = Except.ok (some k) := by
  induction l with
  | nil =>
    intro k _ hk _
    rw [show nameAtL [] k = none by unfold nameAtL; rw [getD_out _ _ (by simp)]] at hk
    exact Option.noConfusion hk
  | cons s rest ih =>
    intro k hf hk hmin
    cases s with
    | undef => exact absurd rfl (hf Slot.undef (List.mem_cons_self _ _))
    | null =>
      cases k with
      | zero =>
        rw [show nameAtL (Slot.null :: rest) 0 = none from rfl] at hk
        exact Option.noConfusion hk
      | succ k2 =>
        have hr := ih k2 (fun s hs => hf s (List.mem_cons_of_mem _ hs))
          (by simpa [nameAtL] using hk)
          (by
            intro k3 hk3
            have := hmin (k3 + 1) (by omega)
            simpa [nameAtL] using this)
        simp [findByName, hr, Except.map, Option.map]
    | node n =>
      cases k with
      | zero =>
        rw [show nameAtL (Slot.node n :: rest) 0 = some n.name from rfl] at hk
        injection hk with hk2
        simp [findByName, hk2]
      | succ k2 =>
        have hn : ¬(n.name = name) := by
          have := hmin 0 (by omega)
          simpa [nameAtL] using this
        have hr := ih k2 (fun s hs => hf s (List.mem_cons_of_mem _ hs))
          (by simpa [nameAtL] using hk)
          (by
            intro k3 hk3
            have := hmin (k3 + 1) (by omega)
            simpa [nameAtL] using this)
        simp [findByName, hn, hr, Except.map, Option.map]

theorem findByName_nomatch (l : List Slot) (name : String) :
    (∀ s ∈ l, s ≠ Slot.undef) → (∀ k, nameAtL l k ≠ some name) →
    findByName l name = Except.ok none := by
  induction l with
  | nil => intro _ _; rfl
  | cons s rest ih =>
    intro hf hnm
    cases s with
    | undef => exact absurd rfl (hf Slot.undef (List.mem_cons_self _ _))
    | null =>
      have hr := ih (fun s hs => hf s (List.mem_cons_of_mem _ hs))
        (by
          intro k
          have := hnm (k + 1)
          simpa [nameAtL] using this)
      simp [findByName, hr, Except.map, Option.map]
    | node n =>
      have hn : ¬(n.name = name) := by
        have := hnm 0
        simpa [nameAtL] using this
      have hr := ih (fun s hs => hf s (List.mem_cons_of_mem _ hs))
        (by
          intro k
          have := hnm (k + 1)
          simpa [nameAtL] using this)
      simp [findByName, hn, hr, Except.map, Option.map]

theorem findFreeSlot_of_first (l : List Slot) :
    ∀ k, (l.getD k Slot.undef).isNull = true →
    (∀ k2, k2 < k → (l.getD k2 Slot.undef).isNull = false) →
    findFreeSlot l = some k := by
  induction l with
  | nil =>
    intro k hk _
    rw [getD_out _ _ (by simp)] at hk
    exact Bool.noConfusion hk
  | cons s rest ih =>
    intro k hk hmin
    cases s with
    | null =>
      cases k with
      | zero => rfl
      | succ k2 =>
        have := hmin 0 (by omega)
        simp [Slot.isNull] at this
    | undef =>
      cases k with
      | zero =>
        simp [Slot.isNull] at hk
      | succ k2 =>
        have hr := ih k2 (by simpa using hk)
          (by
            intro k3 hk3
            have := hmin (k3 + 1) (by omega)
            simpa using this)
        simp [findFreeSlot, hr]
    | node n =>
      cases k with
      | zero =>
        simp [Slot.isNull] at hk
      | succ k2 =>
        have hr := ih k2 (by simpa using hk)
          (by
            intro k3 hk3
            have := hmin (k3 + 1) (by omega)
            simpa using this)
        simp [findFreeSlot, hr]

theorem findFreeSlot_of_none (l : List Slot) :
    (∀ k, (l.getD k Slot.undef).isNull = false) → findFreeSlot l = none := by
  induction l with
  | nil => intro _; rfl
  | cons s rest ih =>
    intro h
    cases s with
    | null =>
      have := h 0
      simp [Slot.isNull] at this
    | undef =>
      have hr := ih (fun k => by simpa using h (k + 1))
      simp [findFreeSlot, hr]
    | node n =>
      have hr := ih (fun k => by simpa using h (k + 1))
      simp [findFreeSlot, hr]

/-- C1: after every sequence of public operations (getOrCreateNodeIndex,
addFriendGroup, addOrUpdateEdge with live endpoints, renameNode,
deleteNode, update), adjacency sets and the pair index exactly reflect
the edge list: for a < b, mutual adjacency holds iff an edge (a, b) is
stored, every stored edge's canonical key maps to its storage position,
and the pair index contains no other entries. -/
theorem claim_C1_exact_reflection (g : Graph) (h : Reachable g) :
    (∀ a b, a < b →
      ((b ∈ adjAt g a ∧ a ∈ adjAt g b) ↔ ∃ d, (a, b, d) ∈ g.edges)) ∧
    (∀ v a b d, g.edges.get? v = some (a, b, d) →
      mapGet g.pairToEdgeIndex (pairKey a b) = some v) ∧
    (∀ k v, mapGet g.pairToEdgeIndex k = some v →
      ∃ a b d, g.edges.get? v = some (a, b, d) ∧ k = pairKey a b) := by
  have hi := reachable_inv h
  refine ⟨?_, ?_, ?_⟩
  · intro a b hab
    have h1 := hi.adjExact a b
    have h2 := hi.adjExact b a
    rw [show min a b = a by omega, show max a b = b by omega] at h1
    rw [show min b a = a by omega, show max b a = b by omega] at h2
    constructor
    · rintro ⟨hm, _⟩
      exact h1.mp hm
    · intro he
      exact ⟨h1.mpr he, h2.mpr he⟩
  · intro v a b d he
    exact hi.keyComplete v (a, b, d) he
  · intro k v hk
    obtain ⟨e, he, hkey⟩ := hi.keySound k v hk
    exact ⟨e.1, e.2.1, e.2.2, by simpa using he, hkey⟩

/-- Witness for C1 at the concrete reachable graph obtained by
addFriendGroup(["A", "B"], 2020) on a fresh graph, instantiated at the
pair (0, 1) and its stored edge. -/
theorem claim_C1_witness :
    1 ∈ adjAt (addFriendGroup Graph.init ["A", "B"] 2020).1 0 ∧
    0 ∈ adjAt (addFriendGroup Graph.init ["A", "B"] 2020).1 1 ∧
    mapGet (addFriendGroup Graph.init ["A", "B"] 2020).1.pairToEdgeIndex
      (pairKey 0 1) = some 0 := by
  have hw := claim_C1_exact_reflection (addFriendGroup Graph.init ["A", "B"] 2020).1
    (Reachable.addGroup Graph.init ["A", "B"] 2020 Reachable.init)
  have hm := (hw.1 0 1 (by decide)).mpr ⟨2020, by decide⟩
  exact ⟨hm.1, hm.2, hw.2.1 0 0 1 2020 (by decide)⟩

/-- C10: addFriendGroup with a names list in which the same name occurs
twice inserts a self-edge (0, 0) into edge storage, places 0 in its own
adjacency set, and degree then counts the node as its own neighbour. -/
theorem claim_C10_self_edge :
    (0, 0, 5) ∈ (addFriendGroup Graph.init ["A", "A"] 5).1.edges ∧
    0 ∈ adjAt (addFriendGroup Graph.init ["A", "A"] 5).1 0 ∧
    degree (addFriendGroup Graph.init ["A", "A"] 5).1 0 = Except.ok 1 := by
  refine ⟨by decide, by decide, rfl⟩

/-- C2 counterexample: after addFriendGroup(["A", "A", "B"], 5) the
duplicate name yields a self-loop, so node 0 is a former neighbour of
itself with degree 2; deleteNode(0) drops its degree to 0, not by
exactly one, refuting the claim as stated. -/
theorem claim_C2_counterexample :
    0 ∈ adjAt (addFriendGroup Graph.init ["A", "A", "B"] 5).1 0 ∧
    degree (addFriendGroup Graph.init ["A", "A", "B"] 5).1 0 = Except.ok 2 ∧
    degree (deleteNode (addFriendGroup Graph.init ["A", "A", "B"] 5).1 0).1.1 0
      = Except.ok 0 := by
  exact ⟨by decide, rfl, rfl⟩

/-- C2 (amended): deleteNode of a free in-bounds slot is a no-op that
returns the empty list; deleteNode of a live slot tombstones it and
returns the endpoint pairs of the incident edges in storage order;
afterwards no stored edge references i and no adjacency set contains i,
and each former neighbour other than i itself loses exactly one from its
degree (the node's own degree may drop by more when a self-loop and other
edges are removed together). -/
theorem claim_C2_deleteNode (g : Graph) (i : ℕ) (h : Reachable g) :
    (isFree g i = true → deleteNode g i = ((g, []), none)) ∧
    (isLive g i →
      (deleteNode g i).2 = none ∧
      isFree (deleteNode g i).1.1 i = true ∧
      (deleteNode g i).1.2
        = (g.edges.filter (fun e => e.1 = i ∨ e.2.1 = i)).map
            (fun e => (e.1, e.2.1)) ∧
      (∀ e ∈ (deleteNode g i).1.1.edges, e.1 ≠ i ∧ e.2.1 ≠ i) ∧
      (∀ j, i ∉ adjAt (deleteNode g i).1.1 j) ∧
      (∀ j, j ∈ adjAt g i → j ≠ i →
        degree g j = Except.ok (adjAt g j).card ∧
        1 ≤ (adjAt g j).card ∧
        degree (deleteNode g i).1.1 j = Except.ok ((adjAt g j).card - 1))) := by
  have hinv := reachable_inv h
  constructor
  · exact deleteNode_free g i
  · intro hlive
    have hnf : isFree g i = false := by
      obtain ⟨nd, hnd⟩ := hlive
      unfold isFree
      rw [hnd]
      rfl
    obtain ⟨h2, hrm, hedges, hnodes, hadj, hinv2⟩ :=
      deleteNode_proceed_spec g i hinv hnf
    have hilt : i < g.nodes.length := isLive_lt hlive
    refine ⟨h2, ?_, hrm, ?_, ?_, ?_⟩
    · unfold isFree
      rw [hnodes, getD_listWrite_self]
      rfl
    · intro e he
      rw [hedges] at he
      have hm := List.mem_filter.mp he
      have := hm.2
      simp at this
      exact this
    · intro j hmem
      rw [hadj j i] at hmem
      obtain ⟨dd, hdd⟩ := hmem
      have hm := List.mem_filter.mp hdd
      have hne := hm.2
      simp at hne
      omega
    · intro j hj hjne
      have hjedge : ∃ dd, (min i j, max i j, dd) ∈ g.edges := by
        have := hinv.adjExact i j
        exact this.mp hj
      obtain ⟨dd0, hdd0⟩ := hjedge
      have hjlive : isLive g j := by
        obtain ⟨l1, l2⟩ := hinv.liveEnds _ hdd0
        rcases min_cases i j with ⟨hm, _⟩ | ⟨hm, _⟩
        · have hmx : max i j = j := by omega
          rw [hmx] at l2
          exact l2
        · rw [hm] at l1
          exact l1
      have hjadj : j < g.adj.length := by
        rw [hinv.lenEq]
        exact isLive_lt hjlive
      have hiin : i ∈ adjAt g j := by
        rw [hinv.adjExact j i]
        refine ⟨dd0, ?_⟩
        rw [show min j i = min i j by omega, show max j i = max i j by omega]
        exact hdd0
      have herase : adjAt (deleteNode g i).1.1 j = (adjAt g j).erase i := by
        apply Finset.ext
        intro y
        rw [hadj j y, Finset.mem_erase, hinv.adjExact j y]
        constructor
        · rintro ⟨dd, hdd⟩
          have hm := List.mem_filter.mp hdd
          have hne := hm.2
          simp at hne
          exact ⟨by omega, ⟨dd, hm.1⟩⟩
        · rintro ⟨hyne, dd, hdd⟩
          refine ⟨dd, List.mem_filter.mpr ⟨hdd, ?_⟩⟩
          simp
          omega
      have hjadj2 : j < (deleteNode g i).1.1.adj.length := by
        rw [hinv2.lenEq, hnodes, listWrite_length]
        have := hinv.lenEq
        omega
      refine ⟨degree_eq_card hinv hjadj, ?_, ?_⟩
      · have := Finset.card_pos.mpr ⟨i, hiin⟩
        omega
      · rw [degree_eq_card hinv2 hjadj2, herase,
          Finset.card_erase_of_mem hiin]

/-- Witness for C2 (amended) at a concrete reachable two-node graph with
one edge, deleting node 0. -/
theorem claim_C2_witness :
    (deleteNode (addFriendGroup Graph.init ["A", "B"] 7).1 0).2 = none ∧
    isFree (deleteNode (addFriendGroup Graph.init ["A", "B"] 7).1 0).1.1 0
      = true ∧
    (deleteNode (addFriendGroup Graph.init ["A", "B"] 7).1 0).1.2
      = ((addFriendGroup Graph.init ["A", "B"] 7).1.edges.filter
          (fun e => e.1 = 0 ∨ e.2.1 = 0)).map (fun e => (e.1, e.2.1)) := by
  have hw := (claim_C2_deleteNode (addFriendGroup Graph.init ["A", "B"] 7).1 0
    (Reachable.addGroup Graph.init ["A", "B"] 7 Reachable.init)).2
    ⟨newNode "A", rfl⟩
  exact ⟨hw.1, hw.2.1, hw.2.2.1⟩

/-- C6 counterexample: addOrUpdateEdge on a one-node graph with the
out-of-bounds endpoint 1 raises a TypeError, yet the edge list observed
afterwards contains the new edge, so the failed call did not leave the
graph in its prior state. -/
theorem claim_C6_counterexample :
    (addOrUpdateEdge (getOrCreateNodeIndex Graph.init "A").1 0 1 5).2
      = some "TypeError" ∧
    (addOrUpdateEdge (getOrCreateNodeIndex Graph.init "A").1 0 1 5).1.edges
      = [(0, 1, 5)] ∧
    (getOrCreateNodeIndex Graph.init "A").1.edges = [] := by
  exact ⟨rfl, by decide, by decide⟩

/-- C6 (amended): a failed renameNode, getOrCreateNodeIndex or update
leaves the graph unchanged, but a failed addOrUpdateEdge does not: with
a live lower endpoint and an out-of-bounds higher endpoint on a fresh
pair it raises only after appending the edge and registering it in the
pair index, so the partial mutation is observable after the failure. -/
theorem claim_C6_failure_behavior :
    (∀ g i nm, (renameNode g i nm).2 ≠ none → (renameNode g i nm).1 = g) ∧
    (∀ g nm, (∀ idx, (getOrCreateNodeIndex g nm).2 ≠ Except.ok idx) →
      (getOrCreateNodeIndex g nm).1 = g) ∧
    (∀ g t, (update g t).2 ≠ none → (update g t).1 = g) ∧
    (∀ g i j d, GraphInv g → isLive g (min i j) → g.adj.length ≤ max i j →
      mapGet g.pairToEdgeIndex (pairKey (min i j) (max i j)) = none →
      (addOrUpdateEdge g i j d).2 = some "TypeError" ∧
      (addOrUpdateEdge g i j d).1.edges = g.edges ++ [(min i j, max i j, d)] ∧
      mapGet (addOrUpdateEdge g i j d).1.pairToEdgeIndex
        (pairKey (min i j) (max i j)) = some g.edges.length) := by
  refine ⟨?_, ?_, ?_, ?_⟩
  · intro g i nm hs
    unfold renameNode at hs ⊢
    cases hc : g.nodes.getD i Slot.undef with
    | node n =>
      rw [hc] at hs
      simp at hs
    | null => rfl
    | undef => rfl
  · intro g nm hs
    unfold getOrCreateNodeIndex at hs ⊢
    cases hf : findByName g.nodes nm with
    | error e2 => rfl
    | ok o =>
      rw [hf] at hs
      cases o with
      | some idx =>
        exact absurd rfl (hs idx)
      | none =>
        cases hfr : findFreeSlot g.nodes with
        | some idx =>
          rw [hfr] at hs
          exact absurd rfl (hs idx)
        | none =>
          rw [hfr] at hs
          exact absurd rfl (hs g.nodes.length)
  · intro g t hs
    unfold update at hs ⊢
    by_cases hn : g.nodes.length = 0
    · rw [if_pos hn] at hs
      simp at hs
    · rw [if_neg hn] at hs ⊢
      cases hp : (pairList g.nodes.length).foldlM (pairStep g) (fun _ => vec2 0 0) with
      | error e2 =>
        rw [hp] at hs
      | ok F =>
        rw [hp] at hs
        simp only at hs ⊢
        cases hcc : (List.range g.nodes.length).foldlM (centerStep g) F with
        | error e2 =>
          rw [hcc] at hs
        | ok F2 =>
          rw [hcc] at hs
          simp at hs
  · intro g i j d hinv hlivemin hmaxlen hnone
    have ha : min i j < g.adj.length := by
      rw [hinv.lenEq]
      exact isLive_lt hlivemin
    have h1 := @adjAdd_ok g.adj (min i j) (max i j) hinv.adjDef ha
    have h2 : adjAdd (g.adj.set (min i j)
        (AdjSlot.set (insert (max i j) (adjAtL g.adj (min i j))))) (max i j)
        (min i j) = Except.error "TypeError" := by
      unfold adjAdd
      rw [getD_out _ _ (by simpa using hmaxlen)]
    simp only [addOrUpdateEdge, edge_lo, edge_hi, hnone, h1, h2]
    exact ⟨trivial, trivial, mapGet_mapSet_self _ _ _⟩

/-- Witness for C6 (amended): the concrete one-node graph, with the
failing-addOrUpdateEdge conjunct instantiated at endpoints 0 and 1. -/
theorem claim_C6_witness :
    (addOrUpdateEdge (getOrCreateNodeIndex Graph.init "A").1 0 1 7).2
      = some "TypeError" ∧
    (addOrUpdateEdge (getOrCreateNodeIndex Graph.init "A").1 0 1 7).1.edges
      = (getOrCreateNodeIndex Graph.init "A").1.edges ++ [(min 0 1, max 0 1, 7)] ∧
    mapGet (addOrUpdateEdge (getOrCreateNodeIndex Graph.init "A").1 0 1 7).1.pairToEdgeIndex
      (pairKey (min 0 1) (max 0 1))
      = some (getOrCreateNodeIndex Graph.init "A").1.edges.length :=
  claim_C6_failure_behavior.2.2.2 (getOrCreateNodeIndex Graph.init "A").1 0 1 7
    (reachable_inv (Reachable.getOrCreate Graph.init "A" Reachable.init))
    ⟨newNode "A", rfl⟩ (by decide) (by decide)

/-- C3: for distinct live indices i and j with no pre-existing edge for
the pair, addOrUpdateEdge(i, j, d1) followed by addOrUpdateEdge on the
same unordered pair in either endpoint order with d2 leaves exactly one
edge for the pair in storage, canonically ordered and dated
min(d1, d2), and neither call fails. -/
theorem claim_C3_dedup_earliest (g : Graph) (i j p q : ℕ) (d1 d2 : ℤ)
    (h : Reachable g) (hi : isLive g i) (hj : isLive g j) (hij : i ≠ j)
    (hpq : (p = i ∧ q = j) ∨ (p = j ∧ q = i))
    (hfresh : mapGet g.pairToEdgeIndex (pairKey (min i j) (max i j)) = none) :
    ((addOrUpdateEdge (addOrUpdateEdge g i j d1).1 p q d2).1.edges.filter
        (fun e => (e.1 = i ∧ e.2.1 = j) ∨ (e.1 = j ∧ e.2.1 = i)))
      = [(min i j, max i j, min d1 d2)] ∧
    (addOrUpdateEdge g i j d1).2 = none ∧
    (addOrUpdateEdge (addOrUpdateEdge g i j d1).1 p q d2).2 = none := by
  have hinv := reachable_inv h
  have hilt := isLive_lt hi
  have hjlt := isLive_lt hj
  have ha : min i j < g.adj.length := by
    rw [hinv.lenEq]
    omega
  have hb : max i j < g.adj.length := by
    rw [hinv.lenEq]
    omega
  have hfq := addOrUpdateEdge_fresh_eq g i j d1 ha hb hinv.adjDef hfresh
  have hfe : (addOrUpdateEdge g i j d1).1.edges
      = g.edges ++ [(min i j, max i j, d1)] := by
    rw [hfq]
  have hfm : (addOrUpdateEdge g i j d1).1.pairToEdgeIndex
      = mapSet g.pairToEdgeIndex (pairKey (min i j) (max i j)) g.edges.length := by
    rw [hfq]
  have hminpq : min p q = min i j := by
    rcases hpq with ⟨h1, h2⟩ | ⟨h1, h2⟩ <;> subst h1 <;> subst h2 <;> omega
  have hmaxpq : max p q = max i j := by
    rcases hpq with ⟨h1, h2⟩ | ⟨h1, h2⟩ <;> subst h1 <;> subst h2 <;> omega
  have hget2 : mapGet (addOrUpdateEdge g i j d1).1.pairToEdgeIndex
      (pairKey (min p q) (max p q)) = some g.edges.length := by
    rw [hfm, hminpq, hmaxpq]
    exact mapGet_mapSet_self _ _ _
  have hhe2 : (addOrUpdateEdge g i j d1).1.edges.get? g.edges.length
      = some (min i j, max i j, d1) := by
    rw [hfe]
    exact get?_append_length _ _
  have hex := addOrUpdateEdge_existing_eq (addOrUpdateEdge g i j d1).1 p q d2
    hget2 hhe2
  have hnotold : ∀ e ∈ g.edges,
      ¬((e.1 = i ∧ e.2.1 = j) ∨ (e.1 = j ∧ e.2.1 = i)) := by
    intro e he hcase
    have hc := hinv.canon e he
    have he1 : e.1 = min i j := by omega
    have he2 : e.2.1 = max i j := by omega
    obtain ⟨v, hv⟩ := (mem_iff_get? _ _).mp he
    have hkc := hinv.keyComplete v e hv
    rw [he1, he2, hfresh] at hkc
    exact Option.noConfusion hkc
  have hfilnil : g.edges.filter
      (fun e => decide ((e.1 = i ∧ e.2.1 = j) ∨ (e.1 = j ∧ e.2.1 = i))) = [] := by
    rw [List.filter_eq_nil_iff]
    intro e he
    simpa using hnotold e he
  have hPtrue : (min i j = i ∧ max i j = j) ∨ (min i j = j ∧ max i j = i) := by
    omega
  refine ⟨?_, by rw [hfq], by rw [hex]⟩
  rw [hex]
  by_cases hd : d2 < (min i j, max i j, d1).2.2
  · rw [if_pos hd]
    simp only [hfe]
    rw [set_append_last, List.filter_append, hfilnil, List.nil_append,
      List.filter_cons]
    rw [if_pos (by simpa using hPtrue)]
    simp only [List.filter_nil]
    have : min d1 d2 = d2 := by
      simp only at hd
      omega
    rw [this]
  · rw [if_neg hd]
    simp only [hfe]
    rw [List.filter_append, hfilnil, List.nil_append, List.filter_cons]
    rw [if_pos (by simpa using hPtrue)]
    simp only [List.filter_nil]
    have : min d1 d2 = d1 := by
      simp only at hd
      omega
    rw [this]

/-- Witness for C3 at a concrete two-node graph, adding the pair with
date 10 then the reversed pair with date 3. -/
theorem claim_C3_witness :
    ((addOrUpdateEdge (addOrUpdateEdge
        (getOrCreateNodeIndex (getOrCreateNodeIndex Graph.init "A").1 "B").1
        0 1 10).1 1 0 3).1.edges.filter
      (fun e => (e.1 = 0 ∧ e.2.1 = 1) ∨ (e.1 = 1 ∧ e.2.1 = 0)))
      = [(min 0 1, max 0 1, min 10 3)] ∧
    (addOrUpdateEdge
        (getOrCreateNodeIndex (getOrCreateNodeIndex Graph.init "A").1 "B").1
        0 1 10).2 = none ∧
    (addOrUpdateEdge (addOrUpdateEdge
        (getOrCreateNodeIndex (getOrCreateNodeIndex Graph.init "A").1 "B").1
        0 1 10).1 1 0 3).2 = none :=
  claim_C3_dedup_earliest
    (getOrCreateNodeIndex (getOrCreateNodeIndex Graph.init "A").1 "B").1
    0 1 1 0 10 3
    (Reachable.getOrCreate _ "B" (Reachable.getOrCreate Graph.init "A"
      Reachable.init))
    ⟨newNode "A", rfl⟩ ⟨newNode "B", rfl⟩ (by decide) (Or.inr ⟨rfl, rfl⟩)
    (by decide)

theorem isFree_null {g : Graph} {k : ℕ} (h : isFree g k = true) :
    g.nodes.getD k Slot.undef = Slot.null := by
  unfold isFree at h
  cases hc : g.nodes.getD k Slot.undef with
  | null => rfl
  | undef =>
    rw [hc] at h
    simp [Slot.isNull] at h
  | node n =>
    rw [hc] at h
    simp [Slot.isNull] at h

/-- C4: on a graph whose slots are all live or free (the data model's
slot states), getOrCreateNodeIndex returns the lowest live index with
this name and changes nothing; otherwise it creates the node in the
lowest-index free slot; otherwise it appends a new slot and returns the
previous storage length.  Hence the same live name always resolves to
the same index. -/
theorem claim_C4_getOrCreate (g : Graph) (name : String)
    (hf : ∀ s ∈ g.nodes, s ≠ Slot.undef) :
    (∀ k, nameAt g k = some name → (∀ k2, k2 < k → nameAt g k2 ≠ some name) →
      getOrCreateNodeIndex g name = (g, Except.ok k)) ∧
    ((∀ k, k < g.nodes.length → nameAt g k ≠ some name) →
      ∀ k, isFree g k = true → (∀ k2, k2 < k → isFree g k2 = false) →
        (getOrCreateNodeIndex g name).2 = Except.ok k ∧
        nameAt (getOrCreateNodeIndex g name).1 k = some name ∧
        (∀ m, m ≠ k → (getOrCreateNodeIndex g name).1.nodes.getD m Slot.undef
          = g.nodes.getD m Slot.undef) ∧
        (getOrCreateNodeIndex g name).1.nodes.length = g.nodes.length) ∧
    ((∀ k, k < g.nodes.length → nameAt g k ≠ some name) →
      (∀ k, k < g.nodes.length → isFree g k = false) →
      (getOrCreateNodeIndex g name).2 = Except.ok g.nodes.length ∧
      nameAt (getOrCreateNodeIndex g name).1 g.nodes.length = some name ∧
      (∀ m, m ≠ g.nodes.length →
        (getOrCreateNodeIndex g name).1.nodes.getD m Slot.undef
          = g.nodes.getD m Slot.undef) ∧
      (getOrCreateNodeIndex g name).1.nodes.length = g.nodes.length + 1) := by
  refine ⟨?_, ?_, ?_⟩
  · intro k hk hmin
    have hfb := findByName_first g.nodes name k hf hk hmin
    unfold getOrCreateNodeIndex
    rw [hfb]
  · intro hnm k hk hmin
    have hnm2 : ∀ k2, nameAtL g.nodes k2 ≠ some name := by
      intro k2
      by_cases hlt : k2 < g.nodes.length
      · exact hnm k2 hlt
      · unfold nameAtL
        rw [getD_out _ _ (by omega)]
        exact fun hc => Option.noConfusion hc
    have hfb := findByName_nomatch g.nodes name hf hnm2
    have hfr := findFreeSlot_of_first g.nodes k hk hmin
    have hklen : k < g.nodes.length :=
      getD_lt_of_ne_default _ _ (by
        rw [isFree_null hk]
        exact fun hc => Slot.noConfusion hc)
    have hgo : getOrCreateNodeIndex g name
        = ({ g with
              nodes := listWrite g.nodes k (Slot.node (newNode name)) Slot.undef
              adj := listWrite g.adj k (AdjSlot.set ∅) AdjSlot.undef },
           Except.ok k) := by
      unfold getOrCreateNodeIndex
      rw [hfb, hfr]
    rw [hgo]
    refine ⟨rfl, ?_, ?_, ?_⟩
    · rw [nameAt_eq_nameAtL]
      unfold nameAtL
      simp only
      rw [getD_listWrite_self]
      rfl
    · intro m hm
      simp only
      exact getD_listWrite_ne _ _ _ _ hm
    · simp only [listWrite_length]
      omega
  · intro hnm hfree
    have hnm2 : ∀ k2, nameAtL g.nodes k2 ≠ some name := by
      intro k2
      by_cases hlt : k2 < g.nodes.length
      · exact hnm k2 hlt
      · unfold nameAtL
        rw [getD_out _ _ (by omega)]
        exact fun hc => Option.noConfusion hc
    have hfree2 : ∀ k2, (g.nodes.getD k2 Slot.undef).isNull = false := by
      intro k2
      by_cases hlt : k2 < g.nodes.length
      · exact hfree k2 hlt
      · rw [getD_out _ _ (by omega)]
        rfl
    have hfb := findByName_nomatch g.nodes name hf hnm2
    have hfr := findFreeSlot_of_none g.nodes hfree2
    have hgo : getOrCreateNodeIndex g name
        = ({ g with
              nodes := g.nodes ++ [Slot.node (newNode name)]
              adj := g.adj ++ [AdjSlot.set ∅] },
           Except.ok g.nodes.length) := by
      unfold getOrCreateNodeIndex
      rw [hfb, hfr]
    rw [hgo]
    refine ⟨rfl, ?_, ?_, by simp⟩
    · rw [nameAt_eq_nameAtL]
      unfold nameAtL
      simp only
      rw [getD_append_self]
      rfl
    · intro m hm
      simp only
      by_cases hml : m < g.nodes.length
      · exact getD_append_left _ _ _ hml
      · rw [getD_out _ _ (by simp; omega), getD_out _ _ (by omega)]

/-- Witness for C4 at a concrete graph with a freed slot 0 and live
slot 1, creating a new name "C": the free slot is reused. -/
theorem claim_C4_witness :
    (getOrCreateNodeIndex
        (deleteNode (addFriendGroup Graph.init ["A", "B"] 7).1 0).1.1 "C").2
      = Except.ok 0 ∧
    nameAt (getOrCreateNodeIndex
        (deleteNode (addFriendGroup Graph.init ["A", "B"] 7).1 0).1.1 "C").1 0
      = some "C" ∧
    (getOrCreateNodeIndex
        (deleteNode (addFriendGroup Graph.init ["A", "B"] 7).1 0).1.1 "C").1.nodes.length
      = (deleteNode (addFriendGroup Graph.init ["A", "B"] 7).1 0).1.1.nodes.length := by
  have hw := (claim_C4_getOrCreate
    (deleteNode (addFriendGroup Graph.init ["A", "B"] 7).1 0).1.1 "C"
    (by
      intro s hs
      rw [show (deleteNode (addFriendGroup Graph.init ["A", "B"] 7).1 0).1.1.nodes
          = [Slot.null, Slot.node (newNode "B")] from rfl] at hs
      simp only [List.mem_cons, List.not_mem_nil, or_false] at hs
      rcases hs with rfl | rfl
      · exact fun hc => Slot.noConfusion hc
      · exact fun hc => Slot.noConfusion hc)).2.1 (by decide) 0 (by decide)
    (by decide)
  exact ⟨hw.1, hw.2.1, hw.2.2.2⟩

/-- C5 counterexample: at positions (0,0) and (0.3,0.4) the separation
has raw length 0.5, and the source divides by that raw length, so the
direction vector (0.6, 0.8) differs from r / max(length(r), 1) = r. -/
theorem claim_C5_counterexample :
    pairDir Graph.init (vec2 0 0) (vec2 0.3 0.4) 1
      ≠ vec2.div (pairR Graph.init (vec2 0 0) (vec2 0.3 0.4) 1)
          (max (pairDistRaw Graph.init (vec2 0 0) (vec2 0.3 0.4) 1) 1) := by
  have hne : ¬ vec2.eq (vec2 0 0) (vec2 0.3 0.4) := by
    unfold vec2.eq vec2
    intro hc
    have h1 := congrArg Prod.fst hc
    norm_num at h1
  have hpj : pairPj Graph.init (vec2 0 0) (vec2 0.3 0.4) 1 = vec2 0.3 0.4 := by
    unfold pairPj
    rw [if_neg hne]
  have hr : pairR Graph.init (vec2 0 0) (vec2 0.3 0.4) 1 = vec2 0.3 0.4 := by
    unfold pairR
    rw [hpj]
    unfold vec2.sub vec2
    norm_num
  have hlen : pairDistRaw Graph.init (vec2 0 0) (vec2 0.3 0.4) 1 = 0.5 := by
    unfold pairDistRaw
    rw [hr]
    unfold vec2.len vec2
    rw [show ((0.3:ℝ) ^ 2 + (0.4:ℝ) ^ 2) = 0.5 ^ 2 by norm_num]
    exact Real.sqrt_sq (by norm_num)
  intro hc
  unfold pairDir at hc
  rw [hr, hlen] at hc
  rw [show max (0.5:ℝ) 1 = 1 from max_eq_right (by norm_num)] at hc
  unfold vec2.div vec2 at hc
  have h2 := congrArg Prod.fst hc
  norm_num at h2

/-- C5 (amended): the direction vector is r divided by the raw
(unclamped) length; the clamp `max(dist, 1)` is applied afterwards and
feeds only the force magnitudes.  Whenever the raw length is at least 1
the two divisors coincide, so the claim's formula holds in that regime. -/
theorem claim_C5_direction (g : Graph) (pi pj : Vec) (j : ℕ) :
    pairDir g pi pj j = vec2.div (pairR g pi pj j) (pairDistRaw g pi pj j) ∧
    pairDist g pi pj j = max (pairDistRaw g pi pj j) 1 ∧
    (1 ≤ pairDistRaw g pi pj j →
      pairDir g pi pj j
        = vec2.div (pairR g pi pj j) (max (pairDistRaw g pi pj j) 1)) := by
  refine ⟨rfl, rfl, ?_⟩
  intro h1
  unfold pairDir
  rw [max_eq_left h1]

/-- Witness for C5 (amended): at positions (0,0) and (3,4) the raw
length is 5 ≥ 1, and the claimed formula agrees with the code. -/
theorem claim_C5_witness :
    pairDir Graph.init (vec2 0 0) (vec2 3 4) 1
      = vec2.div (pairR Graph.init (vec2 0 0) (vec2 3 4) 1)
          (max (pairDistRaw Graph.init (vec2 0 0) (vec2 3 4) 1) 1) := by
  apply (claim_C5_direction Graph.init (vec2 0 0) (vec2 3 4) 1).2.2
  have hne : ¬ vec2.eq (vec2 0 0) (vec2 3 4) := by
    unfold vec2.eq vec2
    intro hc
    have h1 := congrArg Prod.fst hc
    norm_num at h1
  have hr : pairR Graph.init (vec2 0 0) (vec2 3 4) 1 = vec2 3 4 := by
    unfold pairR pairPj
    rw [if_neg hne]
    unfold vec2.sub vec2
    norm_num
  have hlen : pairDistRaw Graph.init (vec2 0 0) (vec2 3 4) 1 = 5 := by
    unfold pairDistRaw
    rw [hr]
    unfold vec2.len vec2
    rw [show ((3:ℝ) ^ 2 + (4:ℝ) ^ 2) = 5 ^ 2 by norm_num]
    exact Real.sqrt_sq (by norm_num)
  rw [hlen]
  norm_num

/-- C9 counterexample: the second jitter entry is (1.8, 1.8), whose
length is √6.48 ≈ 2.546, not 2.5, so the table is not a ring of vectors
of length 2.5 with entry k equal to 2.5·(cos 45°k, sin 45°k). -/
theorem claim_C9_counterexample :
    vec2.len (Graph.init.jitter.getD 1 (vec2 0 0)) ≠ 2.5 := by
  have h1 : Graph.init.jitter.getD 1 (vec2 0 0) = vec2 1.8 1.8 := rfl
  rw [h1]
  unfold vec2.len vec2
  intro hc
  rw [show ((1.8:ℝ) ^ 2 + (1.8:ℝ) ^ 2) = 6.48 by norm_num] at hc
  have h3 := congrArg (fun x : ℝ => x ^ 2) hc
  simp only at h3
  rw [Real.sq_sqrt (by norm_num : (0:ℝ) ≤ 6.48)] at h3
  norm_num at h3

/-- C9 (amended): the jitter table is the fixed eight-entry ring
[(2.5,0), (1.8,1.8), (0,2.5), (-1.8,1.8), (-2.5,0), (-1.8,-1.8),
(0,-2.5), (1.8,-1.8)]: axis entries have length 2.5 while diagonal
entries have length √6.48 ≈ 2.546; the offset chosen for a coincident
pair is deterministically the entry at index j mod 8 (computed as
j & 7), with j the higher node index. -/
theorem claim_C9_jitter (g : Graph) (pi pj : Vec) (j : ℕ) :
    Graph.init.jitter
      = [vec2 2.5 0, vec2 1.8 1.8, vec2 0 2.5, vec2 (-1.8) 1.8,
         vec2 (-2.5) 0, vec2 (-1.8) (-1.8), vec2 0 (-2.5), vec2 1.8 (-1.8)] ∧
    Graph.init.jitter.length = 8 ∧
    vec2.len (Graph.init.jitter.getD 0 (vec2 0 0)) = 2.5 ∧
    vec2.len (Graph.init.jitter.getD 1 (vec2 0 0)) = Real.sqrt 6.48 ∧
    (j &&& 7) = j % 8 ∧
    (vec2.eq pi pj →
      pairPj g pi pj j = vec2.add pj (g.jitter.getD (j % 8) (vec2 0 0))) := by
  have h78 : ∀ jj : ℕ, jj &&& 7 = jj % 8 :=
    fun jj => Nat.and_pow_two_sub_one_eq_mod jj 3
  refine ⟨rfl, rfl, ?_, ?_, h78 j, ?_⟩
  · rw [show Graph.init.jitter.getD 0 (vec2 0 0) = vec2 2.5 0 from rfl]
    unfold vec2.len vec2
    rw [show ((2.5:ℝ) ^ 2 + (0:ℝ) ^ 2) = 2.5 ^ 2 by norm_num]
    exact Real.sqrt_sq (by norm_num)
  · rw [show Graph.init.jitter.getD 1 (vec2 0 0) = vec2 1.8 1.8 from rfl]
    unfold vec2.len vec2
    rw [show ((1.8:ℝ) ^ 2 + (1.8:ℝ) ^ 2) = 6.48 by norm_num]
  · intro heq
    unfold pairPj
    rw [if_pos heq, h78 j]

/-- Witness for C9 (amended) at coincident positions (1,2) and higher
index 9: the offset used is the table entry at 9 mod 8 = 1. -/
theorem claim_C9_witness :
    pairPj Graph.init (vec2 1 2) (vec2 1 2) 9
      = vec2.add (vec2 1 2) (Graph.init.jitter.getD (9 % 8) (vec2 0 0)) ∧
    (9 &&& 7) = 9 % 8 ∧
    Graph.init.jitter.length = 8 := by
  have hw := claim_C9_jitter Graph.init (vec2 1 2) (vec2 1 2) 9
  exact ⟨hw.2.2.2.2.2 rfl, hw.2.2.2.2.1, hw.2.1⟩

theorem updF_self (F : ℕ → Vec) (k : ℕ) (v : Vec) : updF F k v k = v := by
  simp [updF]

theorem updF_ne (F : ℕ → Vec) (k m : ℕ) (v : Vec) (h : m ≠ k) :
    updF F k v m = F m := by
  simp [updF, h]

/-- C7: in each pair interaction of update the contribution accumulated
onto node i is the exact negation of the contribution accumulated onto
node j, separately for the spring term (connected), the long-range
repulsion term (not connected) and the close-range repulsion term, and
hence also for the total. -/
theorem claim_C7_force_symmetry (g : Graph) (F : ℕ → Vec) (i j : ℕ)
    (pi pj : Vec) (c : Bool) (hij : i ≠ j) :
    applyPair g F i j pi pj true i
      = vec2.sub (vec2.add (F i)
          (springForce g (pairDist g pi pj j) (pairDir g pi pj j)))
          (closeForce g (pairDist g pi pj j) (pairDir g pi pj j)) ∧
    applyPair g F i j pi pj true j
      = vec2.add (vec2.sub (F j)
          (springForce g (pairDist g pi pj j) (pairDir g pi pj j)))
          (closeForce g (pairDist g pi pj j) (pairDir g pi pj j)) ∧
    applyPair g F i j pi pj false i
      = vec2.sub (vec2.sub (F i)
          (repelForce g (pairDist g pi pj j) (pairDir g pi pj j)))
          (closeForce g (pairDist g pi pj j) (pairDir g pi pj j)) ∧
    applyPair g F i j pi pj false j
      = vec2.add (vec2.add (F j)
          (repelForce g (pairDist g pi pj j) (pairDir g pi pj j)))
          (closeForce g (pairDist g pi pj j) (pairDir g pi pj j)) ∧
    vec2.sub (applyPair g F i j pi pj c i) (F i)
      = -(vec2.sub (applyPair g F i j pi pj c j) (F j)) := by
  have hji : j ≠ i := Ne.symm hij
  refine ⟨?_, ?_, ?_, ?_, ?_⟩
  · simp [applyPair, updF, hij, hji]
  · simp [applyPair, updF, hij, hji]
  · simp [applyPair, updF, hij, hji]
  · simp [applyPair, updF, hij, hji]
  · cases c
    · simp [applyPair, updF, hij, hji, vec2.sub, vec2.add, Prod.ext_iff]
      constructor <;> ring
    · simp [applyPair, updF, hij, hji, vec2.sub, vec2.add, Prod.ext_iff]
      constructor <;> ring

/-- Witness for C7 at i = 0, j = 1 on a fresh graph with the zero force
array, positions (0,0) and (3,4), connected. -/
theorem claim_C7_witness :
    vec2.sub (applyPair Graph.init (fun _ => vec2 0 0) 0 1 (vec2 0 0)
        (vec2 3 4) true 0) ((fun _ : ℕ => vec2 0 0) 0)
      = -(vec2.sub (applyPair Graph.init (fun _ => vec2 0 0) 0 1 (vec2 0 0)
          (vec2 3 4) true 1) ((fun _ : ℕ => vec2 0 0) 1)) :=
  (claim_C7_force_symmetry Graph.init (fun _ => vec2 0 0) 0 1 (vec2 0 0)
    (vec2 3 4) true (by decide)).2.2.2.2

/-- C8: starting from an empty graph, addFriendGroup(["A","B"], 2020)
places both nodes at the origin; a single update(0.016) completes
without error (in the real-number model every divisor is nonzero once
the jitter offset replaces the coincident separation) and strictly
increases the distance between the two nodes above zero. -/
theorem claim_C8_first_step :
    posAt (addFriendGroup Graph.init ["A", "B"] 2020).1 0
      = posAt (addFriendGroup Graph.init ["A", "B"] 2020).1 1 ∧
    (update (addFriendGroup Graph.init ["A", "B"] 2020).1 0.016).2 = none ∧
    0 < vec2.len (vec2.sub
        (posAt (update (addFriendGroup Graph.init ["A", "B"] 2020).1 0.016).1 1)
        (posAt (update (addFriendGroup Graph.init ["A", "B"] 2020).1 0.016).1 0)) := by
  set g1 := (addFriendGroup Graph.init ["A", "B"] 2020).1 with hg1def
  have hs0 : (0:ℝ) < Real.sqrt 6.48 := Real.sqrt_pos.mpr (by norm_num)
  have hs1 : (1:ℝ) ≤ Real.sqrt 6.48 := by
    have h := Real.sqrt_le_sqrt (show (1:ℝ) ≤ 6.48 by norm_num)
    rwa [Real.sqrt_one] at h
  have hs140 : Real.sqrt 6.48 < 140 := by
    have h := Real.sqrt_lt_sqrt (show (0:ℝ) ≤ 6.48 by norm_num)
      (show (6.48:ℝ) < 19600 by norm_num)
    rwa [show Real.sqrt 19600 = 140 by
      rw [show (19600:ℝ) = 140 ^ 2 by norm_num]
      exact Real.sqrt_sq (by norm_num)] at h
  have hss : Real.sqrt 6.48 * Real.sqrt 6.48 = 6.48 :=
    Real.mul_self_sqrt (by norm_num)
  have hpj : pairPj g1 (vec2 0 0) (vec2 0 0) 1 = vec2 1.8 1.8 := by
    unfold pairPj
    rw [if_pos (show vec2.eq (vec2 0 0) (vec2 0 0) from rfl)]
    show vec2.add (vec2 0 0) (vec2 1.8 1.8) = vec2 1.8 1.8
    unfold vec2.add vec2
    norm_num
  have hr : pairR g1 (vec2 0 0) (vec2 0 0) 1 = vec2 1.8 1.8 := by
    unfold pairR
    rw [hpj]
    unfold vec2.sub vec2
    norm_num
  have hraw : pairDistRaw g1 (vec2 0 0) (vec2 0 0) 1 = Real.sqrt 6.48 := by
    unfold pairDistRaw
    rw [hr]
    unfold vec2.len vec2
    rw [show ((1.8:ℝ) ^ 2 + (1.8:ℝ) ^ 2) = 6.48 by norm_num]
  have hdist : pairDist g1 (vec2 0 0) (vec2 0 0) 1 = Real.sqrt 6.48 := by
    unfold pairDist
    rw [hraw]
    exact max_eq_left hs1
  have hdir : pairDir g1 (vec2 0 0) (vec2 0 0) 1
      = (1.8 / Real.sqrt 6.48, 1.8 / Real.sqrt 6.48) := by
    unfold pairDir
    rw [hr, hraw]
    rfl
  have hstep : pairStep g1 (fun _ => vec2 0 0) (0, 1)
      = Except.ok (applyPair g1 (fun _ => vec2 0 0) 0 1 (vec2 0 0) (vec2 0 0)
          true) := rfl
  have hfold1 : (pairList g1.nodes.length).foldlM (pairStep g1)
      (fun _ => vec2 0 0)
      = Except.ok (applyPair g1 (fun _ => vec2 0 0) 0 1 (vec2 0 0) (vec2 0 0)
          true) := by
    rw [show pairList g1.nodes.length = [(0, 1)] from by decide]
    simp [List.foldlM, hstep]
  set Fp := applyPair g1 (fun _ => vec2 0 0) 0 1 (vec2 0 0) (vec2 0 0) true
    with hFpdef
  set G1 := updF Fp 0 (vec2.sub (Fp 0) (vec2.mul (vec2 0 0) g1.centerK))
    with hG1def
  set F2 := updF G1 1 (vec2.sub (G1 1) (vec2.mul (vec2 0 0) g1.centerK))
    with hF2def
  have hc0 : centerStep g1 Fp 0 = Except.ok G1 := rfl
  have hc1 : centerStep g1 G1 1 = Except.ok F2 := rfl
  have hfold2 : (List.range g1.nodes.length).foldlM (centerStep g1) Fp
      = Except.ok F2 := rfl
  have hup : update g1 0.016 = (integrate g1 F2 0.016, none) := by
    unfold update
    rw [if_neg (show ¬ g1.nodes.length = 0 from by decide)]
    simp only [hfold1]
    simp only [hfold2]
  have hFp0 : Fp 0
      = vec2.sub (vec2.add (vec2 0 0)
          (springForce g1 (pairDist g1 (vec2 0 0) (vec2 0 0) 1)
            (pairDir g1 (vec2 0 0) (vec2 0 0) 1)))
          (closeForce g1 (pairDist g1 (vec2 0 0) (vec2 0 0) 1)
            (pairDir g1 (vec2 0 0) (vec2 0 0) 1)) := by
    rw [hFpdef]
    simp [applyPair, updF]
  have hFp1 : Fp 1
      = vec2.add (vec2.sub (vec2 0 0)
          (springForce g1 (pairDist g1 (vec2 0 0) (vec2 0 0) 1)
            (pairDir g1 (vec2 0 0) (vec2 0 0) 1)))
          (closeForce g1 (pairDist g1 (vec2 0 0) (vec2 0 0) 1)
            (pairDir g1 (vec2 0 0) (vec2 0 0) 1)) := by
    rw [hFpdef]
    simp [applyPair, updF]
  have hF2_0 : F2 0 = vec2.sub (Fp 0) (vec2.mul (vec2 0 0) g1.centerK) := by
    rw [hF2def, hG1def]
    rw [updF_ne _ _ _ _ (by decide : (0:ℕ) ≠ 1), updF_self]
  have hF2_1 : F2 1 = vec2.sub (Fp 1) (vec2.mul (vec2 0 0) g1.centerK) := by
    rw [hF2def, hG1def]
    rw [updF_self, updF_ne _ _ _ _ (by decide : (1:ℕ) ≠ 0)]
  have hpos0 : posAt (integrate g1 F2 0.016) 0
      = vec2.add (vec2 0 0) (vec2.mul (F2 0) 0.016) := rfl
  have hpos1 : posAt (integrate g1 F2 0.016) 1
      = vec2.add (vec2 0 0) (vec2.mul (F2 1) 0.016) := rfl
  have hSx : (springForce g1 (pairDist g1 (vec2 0 0) (vec2 0 0) 1)
      (pairDir g1 (vec2 0 0) (vec2 0 0) 1)).1
      = (1.8 / Real.sqrt 6.48)
        * (0.6 * (Real.sqrt 6.48 - 140) * (140 - Real.sqrt 6.48) / 140) := by
    rw [hdist, hdir]
    unfold springForce vec2.mul
    simp only
    rw [show g1.springK = (0.6:ℝ) from rfl, show g1.springRest = (140:ℝ) from rfl]
    rw [abs_of_neg (by linarith : Real.sqrt 6.48 - 140 < 0)]
    ring
  have hCx : (closeForce g1 (pairDist g1 (vec2 0 0) (vec2 0 0) 1)
      (pairDir g1 (vec2 0 0) (vec2 0 0) 1)).1
      = (1.8 / Real.sqrt 6.48) * (500 / 41.9904) := by
    rw [hdist, hdir]
    unfold closeForce vec2.mul
    simp only
    rw [show g1.closeRepelK = (500:ℝ) from rfl]
    rw [show Real.sqrt 6.48 * Real.sqrt 6.48 * Real.sqrt 6.48 * Real.sqrt 6.48
        = 41.9904 from by
      rw [show Real.sqrt 6.48 * Real.sqrt 6.48 * Real.sqrt 6.48 * Real.sqrt 6.48
          = (Real.sqrt 6.48 * Real.sqrt 6.48) * (Real.sqrt 6.48 * Real.sqrt 6.48)
        from by ring, hss]
      norm_num]
  have hdiffx : (vec2.sub (posAt (update g1 0.016).1 1)
      (posAt (update g1 0.016).1 0)).1
      = 0.016 * (2 * ((1.8 / Real.sqrt 6.48) * (500 / 41.9904)
          - (1.8 / Real.sqrt 6.48)
            * (0.6 * (Real.sqrt 6.48 - 140) * (140 - Real.sqrt 6.48) / 140))) := by
    rw [hup]
    simp only
    rw [hpos0, hpos1, hF2_0, hF2_1, hFp0, hFp1]
    simp only [vec2] at hSx hCx ⊢
    unfold vec2.sub vec2.add vec2.mul
    simp only
    rw [← hSx, ← hCx]
    ring
  have hXpos : 0 < (vec2.sub (posAt (update g1 0.016).1 1)
      (posAt (update g1 0.016).1 0)).1 := by
    rw [hdiffx]
    have hu : 0 < 1.8 / Real.sqrt 6.48 := by positivity
    have hM : (0.6 * (Real.sqrt 6.48 - 140) * (140 - Real.sqrt 6.48) / 140) < 0 := by
      have h1 : Real.sqrt 6.48 - 140 < 0 := by linarith
      have h2 : (0:ℝ) < 140 - Real.sqrt 6.48 := by linarith
      have h3 : 0.6 * (Real.sqrt 6.48 - 140) * (140 - Real.sqrt 6.48) < 0 := by
        nlinarith
      exact div_neg_of_neg_of_pos h3 (by norm_num)
    have hC : (0:ℝ) < 500 / 41.9904 := by norm_num
    have hfac : 0 < (1.8 / Real.sqrt 6.48) * (500 / 41.9904)
        - (1.8 / Real.sqrt 6.48)
          * (0.6 * (Real.sqrt 6.48 - 140) * (140 - Real.sqrt 6.48) / 140) := by
      have hp1 : 0 < (1.8 / Real.sqrt 6.48) * (500 / 41.9904) := mul_pos hu hC
      have hp2 : (1.8 / Real.sqrt 6.48)
          * (0.6 * (Real.sqrt 6.48 - 140) * (140 - Real.sqrt 6.48) / 140) < 0 :=
        mul_neg_of_pos_of_neg hu hM
      linarith
    nlinarith
  refine ⟨rfl, by rw [hup], ?_⟩
  unfold vec2.len
  apply Real.sqrt_pos.mpr
  have h2 : 0 ≤ (vec2.sub (posAt (update g1 0.016).1 1)
      (posAt (update g1 0.016).1 0)).2 ^ 2 := sq_nonneg _
  nlinarith
